import Mathlib

/-!
# Togosort-DFS: graph construction, DFS cycle detection and Kahn topological sort

A shallow embedding of `graph.go`, `dfs.go` and `toposort.go`.

* A Go `map[string]V` is an association list with duplicate-free keys (`GoMap V`).
  Reading a missing key yields the zero value of `V`, as in Go.
* Go leaves the iteration order of `range m` unspecified.  Every function that
  ranges over a map takes the order in which the keys are produced as an explicit
  argument; `IterOrder m order` says that `order` enumerates every key of `m`
  exactly once.
* The recursive closure `dfs`, the queue loop of `TopoSort` and its final swap
  loop are defined by recursion on a fuel argument.  `Graph.DFS` and
  `Graph.TopoSort` supply a fuel that is computed from their input; `none` is
  returned only when the fuel runs out, and `DFS_total`, `kahnLoop_spec` and
  `reverseInPlace_eq` show that this never happens.
* `dfsLog` is `dfs` with an additional output, the list of the nodes whose
  adjacency list the closure ranged over; `dfsLog_fst` shows that it returns
  what `dfs` returns.
* The counters of the in-degree table are Go `int`s.  Their absolute value never
  exceeds the total number of stored edges, so they are modelled by `Int`.
-/

namespace Togosort

/-! ## graph.go -/

/-- Go `map[string]V`. -/
abbrev GoMap (V : Type) := AList (fun _ : String => V)

/-- `order` is a possible iteration order of `range m`: each key exactly once. -/
def IterOrder {V : Type} (m : GoMap V) (order : List String) : Prop :=
  order.Perm m.keys

/-- `type Graph struct { Edges map[string][]string }`. -/
structure Graph where
  Edges : GoMap (List String)
  deriving DecidableEq

/-- `func NewGraph() *Graph`. -/
def NewGraph : Graph := ⟨∅⟩

/-- The read `g.Edges[node]`: the stored slice, or the nil slice for a missing key. -/
def Graph.adj (g : Graph) (node : String) : List String :=
  (g.Edges.lookup node).getD []

/-- `func (g *Graph) AddNode(node string)`. -/
def Graph.AddNode (g : Graph) (node : String) : Graph :=
  if node ∈ g.Edges then g else ⟨g.Edges.insert node []⟩

/-- `func (g *Graph) AddEdge(dependency, dependent string)`. -/
def Graph.AddEdge (g : Graph) (dependency dependent : String) : Graph :=
  let g1 := g.AddNode dependency
  let g2 := g1.AddNode dependent
  ⟨g2.Edges.insert dependency (g2.adj dependency ++ [dependent])⟩

/-- One call of the public API that mutates a graph. -/
inductive Op where
  | addNode (node : String)
  | addEdge (dependency dependent : String)
  deriving DecidableEq

/-- Apply one API call. -/
def Graph.apply (g : Graph) : Op → Graph
  | .addNode n => g.AddNode n
  | .addEdge a b => g.AddEdge a b

/-- The graph obtained from `NewGraph()` by the given calls, in order. -/
def build (ops : List Op) : Graph :=
  ops.foldl Graph.apply NewGraph

/-! ## Paths and cycles -/

/-- There is an edge `x -> y`: `y` occurs in the slice stored for `x`. -/
def Graph.Edge (g : Graph) (x y : String) : Prop := y ∈ g.adj x

/-- A path of zero or more edges. -/
def Graph.Reach (g : Graph) : String → String → Prop := Relation.ReflTransGen g.Edge

/-- A path of one or more edges. -/
def Graph.Path (g : Graph) : String → String → Prop := Relation.TransGen g.Edge

/-- The node lies on a cycle: it reaches itself by one or more edges. -/
def Graph.OnCycle (g : Graph) (n : String) : Prop := g.Path n n

/-- No node lies on a cycle. -/
def Graph.Acyclic (g : Graph) : Prop := ∀ n, ¬ g.OnCycle n

/-- Every edge target is a key of `Edges`. -/
def Graph.Closed (g : Graph) : Prop := ∀ x y, g.Edge x y → y ∈ g.Edges

/-! ## dfs.go -/

/-- The error `fmt.Errorf("cycle detected at %q", node)`, identified by its node. -/
structure CycleError where
  node : String
  deriving DecidableEq

/-- The two local maps of `DFS`; a missing key reads as `false`. -/
structure DfsState where
  visiting : String → Bool
  visited : String → Bool

/-- Outcome of a call of the closure: an error, or `nil` with the updated maps. -/
abbrev DfsResult := Except CycleError DfsState

/-- The loop `for _, x := range xs { if err := dfs(x); err != nil { return err } }`. -/
def visitAll (call : String → DfsState → Option DfsResult) :
    List String → DfsState → Option DfsResult
  | [], st => some (.ok st)
  | x :: rest, st =>
    match call x st with
    | none => none
    | some (.error e) => some (.error e)
    | some (.ok st1) => visitAll call rest st1

/-- The recursive closure `dfs` of `DFS`; `none` when the recursion depth exceeds the fuel. -/
def dfs (g : Graph) : Nat → String → DfsState → Option DfsResult
  | 0, _, _ => none
  | fuel + 1, node, st =>
    if st.visiting node then some (.error ⟨node⟩)
    else if st.visited node then some (.ok st)
    else
      match visitAll (dfs g fuel) (g.adj node)
          ⟨Function.update st.visiting node true, st.visited⟩ with
      | none => none
      | some (.error e) => some (.error e)
      | some (.ok st1) =>
        some (.ok ⟨Function.update st1.visiting node false,
                   Function.update st1.visited node true⟩)

/-- Both maps empty, as created by `make`. -/
def DfsState.init : DfsState := ⟨fun _ => false, fun _ => false⟩

/-- Recursion depth that `DFS` allows the closure. -/
def Graph.dfsFuel (g : Graph) : Nat := g.Edges.keys.length + 1

/-- `func (g *Graph) DFS(roots []string) error`: `some none` is the `nil` result,
`some (some e)` the error `e`. -/
def Graph.DFS (g : Graph) (roots : List String) : Option (Option CycleError) :=
  match visitAll (dfs g g.dfsFuel) roots DfsState.init with
  | none => none
  | some (.error e) => some (some e)
  | some (.ok _) => some none

/-! ## toposort.go -/

/-- The read `inDegree[k]`: zero for a missing key. -/
def degOf (m : GoMap Int) (k : String) : Int := (m.lookup k).getD 0

/-- The inner loop `for _, dep := range g.Edges[node] { inDegree[dep]++ }`. -/
def countDeps : List String → GoMap Int → GoMap Int
  | [], m => m
  | dep :: rest, m => countDeps rest (m.insert dep (degOf m dep + 1))

/-- The first loop of `TopoSort`, ranging over the keys of `Edges` in the given order. -/
def countInDegree (g : Graph) : List String → GoMap Int → GoMap Int
  | [], m => m
  | node :: rest, m =>
    let m1 := if node ∈ m then m else m.insert node 0
    countInDegree g rest (countDeps (g.adj node) m1)

/-- The in-degree table after the first loop. -/
def Graph.inDegree (g : Graph) (order : List String) : GoMap Int :=
  countInDegree g order ∅

/-- The second loop of `TopoSort`, ranging over `inDegree` in the given order. -/
def seedQueue (inDegree : GoMap Int) (order : List String) : List String :=
  order.foldl (fun queue node => if degOf inDegree node = 0 then queue ++ [node] else queue) []

/-- The loop over the dependents of a dequeued node: decrement, enqueue at zero. -/
def relax : List String → List String × GoMap Int → List String × GoMap Int
  | [], s => s
  | dep :: rest, (queue, inDegree) =>
    let inDegree1 := inDegree.insert dep (degOf inDegree dep - 1)
    relax rest (if degOf inDegree1 dep = 0 then queue ++ [dep] else queue, inDegree1)

/-- The loop `for len(queue) > 0`; `none` when more iterations are needed than the fuel. -/
def kahnLoop (g : Graph) : Nat → List String → GoMap Int → List String → Option (List String)
  | _, [], _, result => some result
  | 0, _ :: _, _, _ => none
  | fuel + 1, node :: queue, inDegree, result =>
    kahnLoop g fuel (relax (g.adj node) (queue, inDegree)).1
      (relax (g.adj node) (queue, inDegree)).2 (result ++ [node])

/-- The statement `result[i], result[j] = result[j], result[i]`. -/
def swapAt (result : List String) (i j : Int) : List String :=
  (result.set i.toNat (result.getD j.toNat "")).set j.toNat (result.getD i.toNat "")

/-- The loop `for i, j := 0, len(result)-1; i < j; i, j = i+1, j-1` with the swap as its body;
`none` when more iterations are needed than the fuel. -/
def reverseLoop : Nat → Int → Int → List String → Option (List String)
  | 0, i, j, result => if i < j then none else some result
  | fuel + 1, i, j, result =>
    if i < j then reverseLoop fuel (i + 1) (j - 1) (swapAt result i j) else some result

/-- The final loop of `TopoSort`, started at `i = 0` and `j = len(result)-1`. -/
def reverseInPlace (result : List String) : Option (List String) :=
  reverseLoop result.length 0 ((result.length : Int) - 1) result

/-- `func (g *Graph) TopoSort() []string`.  `order1` is the order in which
`range g.Edges` yields the keys, `order2` the order of `range inDegree`. -/
def Graph.TopoSort (g : Graph) (order1 order2 : List String) : Option (List String) :=
  match kahnLoop g (g.inDegree order1).keys.length
      (seedQueue (g.inDegree order1) order2) (g.inDegree order1) [] with
  | none => none
  | some result => reverseInPlace result

/-- The two iteration orders are possible for `g`. -/
def Graph.Orders (g : Graph) (order1 order2 : List String) : Prop :=
  IterOrder g.Edges order1 ∧ IterOrder (g.inDegree order1) order2

/-! ## Families of graphs and fixtures named by the specification -/

/-- The calls `AddEdge(n1,n2), AddEdge(n2,n3), ..., AddEdge(n(k-1),nk)` for the names
`n1, ..., nk`. -/
def chainOps : List String → List Op
  | a :: b :: rest => .addEdge a b :: chainOps (b :: rest)
  | _ => []

/-- The calls `AddEdge(n1,n2), ..., AddEdge(n(k-1),nk), AddEdge(nk,n1)` for the names
`n1 :: rest`; for an empty `rest` the single call `AddEdge(n1,n1)`. -/
def cycleOps (n1 : String) (rest : List String) : List Op :=
  chainOps (n1 :: rest) ++ [.addEdge (rest.getLastD n1) n1]

/-- The targets of the calls `AddEdge(x, _)` in a list of calls, in call order. -/
def outOf : List Op → String → List String
  | [], _ => []
  | .addNode _ :: ops, x => outOf ops x
  | .addEdge a b :: ops, x => if a = x then b :: outOf ops x else outOf ops x

/-- The name that follows `x` in the list `ns` closed by `t`. -/
def succIn : List String → String → String → String
  | [], t, _ => t
  | m :: rest, t, x => if x = m then rest.headD t else succIn rest t x

/-- The 3-cycle `A -> B -> C -> A`. -/
def cycle3 : Graph := build [.addEdge "A" "B", .addEdge "B" "C", .addEdge "C" "A"]

/-- The self-loop `A -> A`. -/
def selfLoop : Graph := build [.addEdge "A" "A"]

/-- The fixture `A -> B, B -> C, B -> D, D -> F, D -> G`. -/
def fixture : Graph :=
  build [.addEdge "A" "B", .addEdge "B" "C", .addEdge "B" "D", .addEdge "D" "F",
    .addEdge "D" "G"]

/-- The graph built by the single call `AddEdge("libc", "bash")`: `bash` depends on `libc`. -/
def libcBash : Graph := build [.addEdge "libc" "bash"]

/-! ## Auxiliary notions for the analysis of `DFS` -/

/-- Change of the two maps across a call of `dfs` that returns `nil`: `visiting` is restored
and `visited` only gains entries. -/
def Grows (s s1 : DfsState) : Prop :=
  s1.visiting = s.visiting ∧ ∀ v, s.visited v = true → s1.visited v = true

/-- Invariant of the two maps of `DFS`: the visited nodes are closed under edges, none of them
lies on a cycle, and no node is marked in both maps. -/
def DfsInv (g : Graph) (s : DfsState) : Prop :=
  (∀ v w, s.visited v = true → g.Edge v w → s.visited w = true) ∧
  (∀ v, s.visited v = true → ¬ g.OnCycle v) ∧
  (∀ v, s.visiting v = true → s.visited v = false)

/-- The keys that are marked in neither map. -/
def white (g : Graph) (s : DfsState) : List String :=
  g.Edges.keys.filter (fun k => !s.visiting k && !s.visited k)

/-! ## Auxiliary notions for the analysis of `TopoSort` -/

/-- Number of edges into `y` that leave the nodes of the list `xs`, with multiplicity. -/
def inEdges (g : Graph) (xs : List String) (y : String) : Nat :=
  (xs.map (fun x => (g.adj x).count y)).sum

/-- Number of edges into `y` that leave keys of the list `ks` outside `done`. -/
def pendingIn (g : Graph) (ks done : List String) (y : String) : Nat :=
  (ks.map (fun k => if k ∈ done then 0 else (g.adj k).count y)).sum

/-- Number of edges into `y` whose source has not been appended to the result yet. -/
def pending (g : Graph) (done : List String) (y : String) : Nat :=
  pendingIn g g.Edges.keys done y

/-- The name `a` stands at a strictly smaller index of `l` than `b`. -/
def Before (l : List String) (a b : String) : Prop :=
  ∃ i j : Nat, i < j ∧ l[i]? = some a ∧ l[j]? = some b

/-- Invariant of the queue loop of `TopoSort`; `dom` lists the keys of the in-degree table. -/
structure KInv (g : Graph) (dom queue : List String) (deg : GoMap Int)
    (result : List String) : Prop where
  nodup : (result ++ queue).Nodup
  deg_eq : ∀ y, degOf deg y = (pending g result y : Int)
  mem_iff : ∀ y, y ∈ result ++ queue ↔ (y ∈ dom ∧ pending g result y = 0)
  before : ∀ x y, g.Edge x y → y ∈ result ++ queue → Before (result ++ queue) x y

/-- What the analysis establishes about a list returned by `TopoSort`: no duplicates; it
holds exactly the keys and edge targets all of whose predecessors it holds; every edge target
stands before the source of the edge. -/
structure IsKahnOutput (g : Graph) (out : List String) : Prop where
  nodup : out.Nodup
  mem_iff : ∀ y, y ∈ out ↔ ((y ∈ g.Edges ∨ ∃ x, g.Edge x y) ∧ ∀ x, g.Edge x y → x ∈ out)
  before : ∀ x y, g.Edge x y → y ∈ out → Before out y x

/-! ## Further graphs and notions -/

/-- The names passed to a call. -/
def Op.names : Op → List String
  | .addNode n => [n]
  | .addEdge a b => [a, b]

/-- The graph built by `AddEdge(X,Y), AddEdge(Y,X), AddEdge(X,A)`: a 2-cycle with an edge into
`A`. -/
def cycleIntoA : Graph := build [.addEdge "X" "Y", .addEdge "Y" "X", .addEdge "X" "A"]

/-- The graph built by `AddEdge(a, b), AddEdge(a, b)`: a duplicated edge. -/
def doubleEdge (a b : String) : Graph := build [.addEdge a b, .addEdge a b]

/-- The states `(queue, inDegree, result)` in which the queue loop of `TopoSort` tests its
condition: the state after the seeding loop, and the state after each full iteration. -/
inductive LoopHead (g : Graph) (order1 order2 : List String) :
    List String → GoMap Int → List String → Prop
  | start : LoopHead g order1 order2 (seedQueue (g.inDegree order1) order2)
      (g.inDegree order1) []
  | next {x : String} {q : List String} {deg : GoMap Int} {result : List String} :
      LoopHead g order1 order2 (x :: q) deg result →
      LoopHead g order1 order2 (relax (g.adj x) (q, deg)).1 (relax (g.adj x) (q, deg)).2
        (result ++ [x])

/-- The graph built by `AddEdge(A,B), AddEdge(B,A), AddEdge(B,C)`: a 2-cycle with an edge into
`C`. -/
def cycleIntoC : Graph := build [.addEdge "A" "B", .addEdge "B" "A", .addEdge "B" "C"]

/-- The documented example `a -> b, b -> c, c -> d`. -/
def chain4 : Graph := build (chainOps ["a", "b", "c", "d"])

/-! ## `DFS` with a log of the expanded nodes -/

/-- The loop of `visitAll`, for calls that also return a log; the logs are concatenated. -/
def visitAllLog (call : String → DfsState → Option (DfsResult × List String)) :
    List String → DfsState → Option (DfsResult × List String)
  | [], st => some (.ok st, [])
  | x :: rest, st =>
    match call x st with
    | none => none
    | some (.error e, log) => some (.error e, log)
    | some (.ok st1, log) =>
      match visitAllLog call rest st1 with
      | none => none
      | some (r, log1) => some (r, log ++ log1)

/-- The closure `dfs`, returning in addition the nodes whose adjacency list it ranged over
(the nodes it marked `visiting`), in the order in which that happened. -/
def dfsLog (g : Graph) : Nat → String → DfsState → Option (DfsResult × List String)
  | 0, _, _ => none
  | fuel + 1, node, st =>
    if st.visiting node then some (.error ⟨node⟩, [])
    else if st.visited node then some (.ok st, [])
    else
      match visitAllLog (dfsLog g fuel) (g.adj node)
          ⟨Function.update st.visiting node true, st.visited⟩ with
      | none => none
      | some (.error e, log) => some (.error e, node :: log)
      | some (.ok st1, log) =>
        some (.ok ⟨Function.update st1.visiting node false,
                   Function.update st1.visited node true⟩, node :: log)

/-- `DFS`, returning in addition the log of the expanded nodes. -/
def Graph.DFSLog (g : Graph) (roots : List String) : Option (Option CycleError × List String) :=
  match visitAllLog (dfsLog g g.dfsFuel) roots DfsState.init with
  | none => none
  | some (.error e, log) => some (some e, log)
  | some (.ok _, log) => some (none, log)

/-- What holds of the log of a call started in the state `st`: no node is logged twice, every
logged node was unmarked in `st`, and after a `nil` result every logged node is `visited`. -/
def LogOK (st : DfsState) (r : DfsResult) (log : List String) : Prop :=
  log.Nodup ∧ (∀ x ∈ log, st.visiting x = false ∧ st.visited x = false) ∧
  ∀ st1, r = .ok st1 → ∀ x ∈ log, st1.visited x = true

/-! ## Basic facts about the map operations -/

theorem adj_of_lookup {g : Graph} {n : String} {l : List String}
    (h : g.Edges.lookup n = some l) : g.adj n = l := by
  simp [Graph.adj, h]

theorem adj_of_not_mem {g : Graph} {n : String} (h : n ∉ g.Edges) : g.adj n = [] := by
  simp [Graph.adj, AList.lookup_eq_none.mpr h]

theorem lookup_of_mem {g : Graph} {n : String} (h : n ∈ g.Edges) :
    g.Edges.lookup n = some (g.adj n) := by
  have h1 := AList.lookup_isSome.mpr h
  obtain ⟨l, hl⟩ := Option.isSome_iff_exists.mp h1
  rw [adj_of_lookup hl, hl]

theorem mem_of_edge {g : Graph} {x y : String} (h : g.Edge x y) : x ∈ g.Edges := by
  by_contra hx
  simp [Graph.Edge, adj_of_not_mem hx] at h

theorem AddNode_of_mem {g : Graph} {n : String} (h : n ∈ g.Edges) : g.AddNode n = g := by
  simp [Graph.AddNode, h]

theorem lookup_AddNode_self (g : Graph) (n : String) :
    (g.AddNode n).Edges.lookup n = some (g.adj n) := by
  unfold Graph.AddNode
  split
  · next h => exact lookup_of_mem h
  · next h => simp [AList.lookup_insert, adj_of_not_mem h]

theorem lookup_AddNode_ne (g : Graph) {n k : String} (h : k ≠ n) :
    (g.AddNode n).Edges.lookup k = g.Edges.lookup k := by
  unfold Graph.AddNode
  split
  · rfl
  · simp [AList.lookup_insert_ne h]

theorem adj_AddNode (g : Graph) (n k : String) : (g.AddNode n).adj k = g.adj k := by
  by_cases h : k = n
  · subst h
    exact adj_of_lookup (lookup_AddNode_self g k)
  · simp [Graph.adj, lookup_AddNode_ne g h]

theorem mem_AddNode (g : Graph) (n k : String) :
    k ∈ (g.AddNode n).Edges ↔ k = n ∨ k ∈ g.Edges := by
  unfold Graph.AddNode
  split
  · next h =>
    constructor
    · exact fun hk => Or.inr hk
    · rintro (rfl | hk)
      · exact h
      · exact hk
  · simp [AList.mem_insert]

theorem lookup_AddEdge_self (g : Graph) (a b : String) :
    (g.AddEdge a b).Edges.lookup a = some (g.adj a ++ [b]) := by
  simp [Graph.AddEdge, AList.lookup_insert, adj_AddNode]

theorem lookup_AddEdge_ne (g : Graph) (a b : String) {k : String} (h : k ≠ a) :
    (g.AddEdge a b).Edges.lookup k = (g.AddNode b).Edges.lookup k := by
  simp only [Graph.AddEdge]
  rw [AList.lookup_insert_ne h]
  by_cases hb : k = b
  · subst hb
    rw [lookup_AddNode_self, lookup_AddNode_self, adj_AddNode]
  · rw [lookup_AddNode_ne _ hb, lookup_AddNode_ne _ hb, lookup_AddNode_ne _ h]

theorem adj_AddEdge_self (g : Graph) (a b : String) :
    (g.AddEdge a b).adj a = g.adj a ++ [b] :=
  adj_of_lookup (lookup_AddEdge_self g a b)

theorem adj_AddEdge_ne (g : Graph) (a b : String) {k : String} (h : k ≠ a) :
    (g.AddEdge a b).adj k = g.adj k := by
  have h1 : (g.AddEdge a b).adj k = (g.AddNode b).adj k := by
    simp [Graph.adj, lookup_AddEdge_ne g a b h]
  rw [h1, adj_AddNode]

theorem mem_AddEdge (g : Graph) (a b k : String) :
    k ∈ (g.AddEdge a b).Edges ↔ k = a ∨ k = b ∨ k ∈ g.Edges := by
  simp only [Graph.AddEdge, AList.mem_insert, mem_AddNode]
  tauto

/-! ## Claims about `AddNode` and `AddEdge` -/

/-- C9: after `AddEdge(a, b)` the list stored for `a` is its previous list (empty if `a` was
absent) with `b` appended, `b` is a key (with the empty list if it was absent and differs
from `a`), every other key keeps its previous entry, and a second identical call leaves two
consecutive occurrences of `b` at the end of the list of `a`. -/
theorem AddEdge_spec (g : Graph) (a b : String) :
    (g.AddEdge a b).Edges.lookup a = some (g.adj a ++ [b]) ∧
    b ∈ (g.AddEdge a b).Edges ∧
    (b ∉ g.Edges → b ≠ a → (g.AddEdge a b).Edges.lookup b = some []) ∧
    (∀ k, k ≠ a → k ∈ g.Edges → (g.AddEdge a b).Edges.lookup k = g.Edges.lookup k) ∧
    (∀ k, k ≠ a → k ≠ b → (g.AddEdge a b).Edges.lookup k = g.Edges.lookup k) ∧
    ((g.AddEdge a b).AddEdge a b).Edges.lookup a = some (g.adj a ++ [b] ++ [b]) := by
  refine ⟨lookup_AddEdge_self g a b, ?_, ?_, ?_, ?_, ?_⟩
  · exact (mem_AddEdge g a b b).mpr (Or.inr (Or.inl rfl))
  · intro hb hne
    rw [lookup_AddEdge_ne g a b hne, lookup_AddNode_self, adj_of_not_mem hb]
  · intro k hk hmem
    rw [lookup_AddEdge_ne g a b hk]
    by_cases hb : k = b
    · subst hb
      rw [lookup_AddNode_self, lookup_of_mem hmem]
    · exact lookup_AddNode_ne g hb
  · intro k hk hb
    rw [lookup_AddEdge_ne g a b hk, lookup_AddNode_ne g hb]
  · rw [lookup_AddEdge_self, adj_AddEdge_self]

/-- Witness for C9 on the graph with the single node `"b"`, adding the edge `"a" -> "c"`. -/
theorem AddEdge_spec_witness :
    "c" ∉ (NewGraph.AddNode "b").Edges ∧ "c" ≠ "a" ∧
    ((NewGraph.AddNode "b").AddEdge "a" "c").Edges.lookup "c" = some [] ∧
    "b" ∈ (NewGraph.AddNode "b").Edges ∧
    ((NewGraph.AddNode "b").AddEdge "a" "c").Edges.lookup "b"
      = (NewGraph.AddNode "b").Edges.lookup "b" :=
  ⟨by decide, by decide,
   (AddEdge_spec (NewGraph.AddNode "b") "a" "c").2.2.1 (by decide) (by decide),
   by decide,
   (AddEdge_spec (NewGraph.AddNode "b") "a" "c").2.2.2.1 "b" (by decide) (by decide)⟩

/-- C10: `AddNode(n)` on an existing key leaves the graph unchanged; on an absent key it adds
`n` with an empty list and changes no other entry; calling it twice equals calling it once. -/
theorem AddNode_spec (g : Graph) (n : String) :
    (n ∈ g.Edges → g.AddNode n = g) ∧
    (n ∉ g.Edges → (g.AddNode n).Edges.lookup n = some [] ∧
      ∀ k, k ≠ n → (g.AddNode n).Edges.lookup k = g.Edges.lookup k) ∧
    (g.AddNode n).AddNode n = g.AddNode n := by
  refine ⟨AddNode_of_mem, ?_, ?_⟩
  · intro h
    refine ⟨?_, fun k hk => lookup_AddNode_ne g hk⟩
    rw [lookup_AddNode_self, adj_of_not_mem h]
  · exact AddNode_of_mem ((mem_AddNode g n n).mpr (Or.inl rfl))

/-- Witness for C10: `"a"` is a key after `AddEdge("a","b")`, `"z"` is not. -/
theorem AddNode_spec_witness :
    ("a" ∈ (NewGraph.AddEdge "a" "b").Edges ∧
      (NewGraph.AddEdge "a" "b").AddNode "a" = NewGraph.AddEdge "a" "b") ∧
    ("z" ∉ (NewGraph.AddEdge "a" "b").Edges ∧
      ((NewGraph.AddEdge "a" "b").AddNode "z").Edges.lookup "z" = some []) :=
  ⟨⟨by decide, (AddNode_spec (NewGraph.AddEdge "a" "b") "a").1 (by decide)⟩,
   ⟨by decide, ((AddNode_spec (NewGraph.AddEdge "a" "b") "z").2.1 (by decide)).1⟩⟩

/-! ## `DFS`: the maps across successful calls -/

theorem Grows.refl (s : DfsState) : Grows s s := ⟨rfl, fun _ h => h⟩

theorem Grows.andThen {a b c : DfsState} (h1 : Grows a b) (h2 : Grows b c) : Grows a c :=
  ⟨h2.1.trans h1.1, fun v hv => h2.2 v (h1.2 v hv)⟩

theorem visitAll_nil (call : String → DfsState → Option DfsResult) (st : DfsState) :
    visitAll call [] st = some (.ok st) := rfl

theorem visitAll_cons_ok {call : String → DfsState → Option DfsResult} {x : String}
    {rest : List String} {st st1 : DfsState} (h : call x st = some (.ok st1)) :
    visitAll call (x :: rest) st = visitAll call rest st1 := by
  simp [visitAll, h]

theorem visitAll_cons_error {call : String → DfsState → Option DfsResult} {x : String}
    {rest : List String} {st : DfsState} {e : CycleError} (h : call x st = some (.error e)) :
    visitAll call (x :: rest) st = some (.error e) := by
  simp [visitAll, h]

theorem visitAll_cons_none {call : String → DfsState → Option DfsResult} {x : String}
    {rest : List String} {st : DfsState} (h : call x st = none) :
    visitAll call (x :: rest) st = none := by
  simp [visitAll, h]

/-- A successful loop consists of a successful first call followed by a successful rest. -/
theorem visitAll_cons_ok_inv {call : String → DfsState → Option DfsResult} {x : String}
    {rest : List String} {st st2 : DfsState}
    (h : visitAll call (x :: rest) st = some (.ok st2)) :
    ∃ st1, call x st = some (.ok st1) ∧ visitAll call rest st1 = some (.ok st2) := by
  cases hc : call x st with
  | none => rw [visitAll_cons_none hc] at h; cases h
  | some r =>
    cases r with
    | error e => rw [visitAll_cons_error hc] at h; cases h
    | ok st1 => rw [visitAll_cons_ok hc] at h; exact ⟨st1, rfl, h⟩

/-- A failing loop fails at its first call or after a successful first call. -/
theorem visitAll_cons_error_inv {call : String → DfsState → Option DfsResult} {x : String}
    {rest : List String} {st : DfsState} {e : CycleError}
    (h : visitAll call (x :: rest) st = some (.error e)) :
    call x st = some (.error e) ∨
      ∃ st1, call x st = some (.ok st1) ∧ visitAll call rest st1 = some (.error e) := by
  cases hc : call x st with
  | none => rw [visitAll_cons_none hc] at h; cases h
  | some r =>
    cases r with
    | error e1 => rw [visitAll_cons_error hc] at h; exact Or.inl h
    | ok st1 => rw [visitAll_cons_ok hc] at h; exact Or.inr ⟨st1, rfl, h⟩

/-- The three ways in which a call of `dfs` with positive fuel returns `nil` or an error. -/
theorem dfs_succ_cases (g : Graph) (fuel : Nat) (node : String) (st : DfsState)
    (r : DfsResult) (h : dfs g (fuel + 1) node st = some r) :
    (st.visiting node = true ∧ r = .error ⟨node⟩) ∨
    (st.visiting node = false ∧ st.visited node = true ∧ r = .ok st) ∨
    (st.visiting node = false ∧ st.visited node = false ∧
      ((∃ e, visitAll (dfs g fuel) (g.adj node)
            ⟨Function.update st.visiting node true, st.visited⟩ = some (.error e) ∧
          r = .error e) ∨
       (∃ st1, visitAll (dfs g fuel) (g.adj node)
            ⟨Function.update st.visiting node true, st.visited⟩ = some (.ok st1) ∧
          r = .ok ⟨Function.update st1.visiting node false,
                   Function.update st1.visited node true⟩))) := by
  unfold dfs at h
  by_cases h1 : st.visiting node = true
  · simp only [h1, if_true, Option.some.injEq] at h
    exact Or.inl ⟨h1, h.symm⟩
  · have h1f : st.visiting node = false := by simpa using h1
    by_cases h2 : st.visited node = true
    · simp only [h1f, h2, if_true, Bool.false_eq_true, if_false, Option.some.injEq] at h
      exact Or.inr (Or.inl ⟨h1f, h2, h.symm⟩)
    · have h2f : st.visited node = false := by simpa using h2
      simp only [h1f, h2f, Bool.false_eq_true, if_false] at h
      refine Or.inr (Or.inr ⟨h1f, h2f, ?_⟩)
      cases hv : visitAll (dfs g fuel) (g.adj node)
          ⟨Function.update st.visiting node true, st.visited⟩ with
      | none => rw [hv] at h; cases h
      | some r1 =>
        rw [hv] at h
        cases r1 with
        | error e =>
          simp only [Option.some.injEq] at h
          exact Or.inl ⟨e, rfl, h.symm⟩
        | ok st1 =>
          simp only [Option.some.injEq] at h
          exact Or.inr ⟨st1, rfl, h.symm⟩

theorem visitAll_grows {call : String → DfsState → Option DfsResult}
    (hcall : ∀ x s s1, call x s = some (.ok s1) → Grows s s1) :
    ∀ (xs : List String) (st st1 : DfsState),
      visitAll call xs st = some (.ok st1) → Grows st st1 := by
  intro xs
  induction xs with
  | nil =>
    intro st st1 h
    rw [visitAll_nil] at h
    cases h
    exact Grows.refl _
  | cons x rest ih =>
    intro st st2 h
    obtain ⟨st1, h1, h2⟩ := visitAll_cons_ok_inv h
    exact (hcall x st st1 h1).andThen (ih st1 st2 h2)

theorem dfs_grows (g : Graph) : ∀ (fuel : Nat) (node : String) (st st1 : DfsState),
    dfs g fuel node st = some (.ok st1) → Grows st st1 := by
  intro fuel
  induction fuel with
  | zero => intro node st st1 h; simp [dfs] at h
  | succ fuel ih =>
    intro node st st1 h
    rcases dfs_succ_cases g fuel node st _ h with
      ⟨_, hr⟩ | ⟨_, _, hr⟩ | ⟨hvis, _, ⟨e, _, hr⟩ | ⟨st2, hloop, hr⟩⟩
    · cases hr
    · cases hr; exact Grows.refl _
    · cases hr
    · cases hr
      have hg := visitAll_grows (ih) (g.adj node) _ st2 hloop
      refine ⟨?_, ?_⟩
      · show Function.update st2.visiting node false = st.visiting
        rw [hg.1]
        funext v
        by_cases hv : v = node
        · subst hv; simp [hvis]
        · simp [Function.update, hv]
      · intro v hv
        show Function.update st2.visited node true v = true
        by_cases hvn : v = node
        · subst hvn; simp
        · simp only [Function.update, hvn, dite_false]; exact hg.2 v hv

/-! ## `DFS`: a reported node lies on a reachable cycle -/

theorem visitAll_error_sound {g : Graph} {call : String → DfsState → Option DfsResult}
    (hg : ∀ x s s1, call x s = some (.ok s1) → Grows s s1)
    (herr : ∀ x s e, (∀ v, s.visiting v = true → g.Path v x) →
      call x s = some (.error e) → g.Reach x e.node ∧ g.OnCycle e.node) :
    ∀ (xs : List String) (st : DfsState) (e : CycleError),
      (∀ x ∈ xs, ∀ v, st.visiting v = true → g.Path v x) →
      visitAll call xs st = some (.error e) →
      ∃ x ∈ xs, g.Reach x e.node ∧ g.OnCycle e.node := by
  intro xs
  induction xs with
  | nil => intro st e _ h; rw [visitAll_nil] at h; cases h
  | cons x rest ih =>
    intro st e hpre h
    rcases visitAll_cons_error_inv h with h1 | ⟨st1, h1, h2⟩
    · exact ⟨x, List.mem_cons_self _ _,
        herr x st e (hpre x (List.mem_cons_self _ _)) h1⟩
    · have hgr := hg x st st1 h1
      have hpre1 : ∀ y ∈ rest, ∀ v, st1.visiting v = true → g.Path v y := by
        intro y hy v hv
        rw [hgr.1] at hv
        exact hpre y (List.mem_cons_of_mem _ hy) v hv
      obtain ⟨y, hy, hres⟩ := ih st1 e hpre1 h2
      exact ⟨y, List.mem_cons_of_mem _ hy, hres⟩

theorem dfs_error_sound (g : Graph) : ∀ (fuel : Nat) (node : String) (st : DfsState)
    (e : CycleError), (∀ v, st.visiting v = true → g.Path v node) →
    dfs g fuel node st = some (.error e) → g.Reach node e.node ∧ g.OnCycle e.node := by
  intro fuel
  induction fuel with
  | zero => intro node st e _ h; simp [dfs] at h
  | succ fuel ih =>
    intro node st e hpre h
    rcases dfs_succ_cases g fuel node st _ h with
      ⟨hvis, hr⟩ | ⟨_, _, hr⟩ | ⟨_, _, ⟨e1, hloop, hr⟩ | ⟨st2, _, hr⟩⟩
    · cases hr
      exact ⟨Relation.ReflTransGen.refl, hpre node hvis⟩
    · cases hr
    · cases hr
      have hpre1 : ∀ x ∈ g.adj node, ∀ v,
          (DfsState.mk (Function.update st.visiting node true) st.visited).visiting v = true →
          g.Path v x := by
        intro x hx v hv
        by_cases hvn : v = node
        · subst hvn
          exact Relation.TransGen.single hx
        · have hv1 : st.visiting v = true := by
            simpa [Function.update, hvn] using hv
          exact Relation.TransGen.tail (hpre v hv1) hx
      obtain ⟨x, hx, hreach, hcyc⟩ :=
        visitAll_error_sound (dfs_grows g fuel) ih (g.adj node) _ e hpre1 hloop
      exact ⟨Relation.ReflTransGen.head hx hreach, hcyc⟩
    · cases hr

/-! ## `DFS`: after a successful call the visited nodes carry no cycle -/

theorem visited_of_reach {g : Graph} {s : DfsState}
    (hcl : ∀ v w, s.visited v = true → g.Edge v w → s.visited w = true)
    {v w : String} (hv : s.visited v = true) (h : g.Reach v w) : s.visited w = true := by
  induction h with
  | refl => exact hv
  | tail _ hedge ih => exact hcl _ _ ih hedge

theorem visitAll_inv {g : Graph} {call : String → DfsState → Option DfsResult}
    (hg : ∀ x s s1, call x s = some (.ok s1) → Grows s s1)
    (hcall : ∀ x s s1, DfsInv g s → call x s = some (.ok s1) →
      DfsInv g s1 ∧ s1.visited x = true) :
    ∀ (xs : List String) (st st1 : DfsState), DfsInv g st →
      visitAll call xs st = some (.ok st1) →
      DfsInv g st1 ∧ ∀ x ∈ xs, st1.visited x = true := by
  intro xs
  induction xs with
  | nil =>
    intro st st1 hinv h
    rw [visitAll_nil] at h
    cases h
    exact ⟨hinv, fun x hx => absurd hx (List.not_mem_nil x)⟩
  | cons x rest ih =>
    intro st st2 hinv h
    obtain ⟨st1, h1, h2⟩ := visitAll_cons_ok_inv h
    obtain ⟨hinv1, hx1⟩ := hcall x st st1 hinv h1
    obtain ⟨hinv2, hrest⟩ := ih st1 st2 hinv1 h2
    refine ⟨hinv2, ?_⟩
    intro y hy
    rcases List.mem_cons.mp hy with rfl | hy
    · exact (visitAll_grows hg rest st1 st2 h2).2 _ hx1
    · exact hrest y hy

theorem dfs_inv (g : Graph) : ∀ (fuel : Nat) (node : String) (st st1 : DfsState),
    DfsInv g st → dfs g fuel node st = some (.ok st1) →
    DfsInv g st1 ∧ st1.visited node = true := by
  intro fuel
  induction fuel with
  | zero => intro node st st1 _ h; simp [dfs] at h
  | succ fuel ih =>
    intro node st st1 hinv h
    rcases dfs_succ_cases g fuel node st _ h with
      ⟨_, hr⟩ | ⟨_, hvd, hr⟩ | ⟨hvis, hvd, ⟨e, _, hr⟩ | ⟨st2, hloop, hr⟩⟩
    · cases hr
    · cases hr; exact ⟨hinv, hvd⟩
    · cases hr
    · cases hr
      have hinv1 : DfsInv g ⟨Function.update st.visiting node true, st.visited⟩ := by
        refine ⟨hinv.1, hinv.2.1, ?_⟩
        intro v hv
        by_cases hvn : v = node
        · subst hvn; exact hvd
        · have hv1 : st.visiting v = true := by
            simpa [Function.update, hvn] using hv
          exact hinv.2.2 v hv1
      obtain ⟨hinv2, hdeps⟩ :=
        visitAll_inv (dfs_grows g fuel) ih (g.adj node) _ st2 hinv1 hloop
      have hgr := visitAll_grows (dfs_grows g fuel) (g.adj node) _ st2 hloop
      have hnode2 : st2.visited node = false := by
        apply hinv2.2.2
        rw [hgr.1]
        simp
      have hup : ∀ v, st2.visited v = true → Function.update st2.visited node true v = true := by
        intro v hv
        by_cases hvn : v = node
        · subst hvn; simp
        · simpa [Function.update, hvn] using hv
      have hdown : ∀ v, v ≠ node → Function.update st2.visited node true v = true →
          st2.visited v = true := by
        intro v hvn hv
        simpa [Function.update, hvn] using hv
      refine ⟨⟨?_, ?_, ?_⟩, by simp⟩
      · intro v w hv hedge
        apply hup
        by_cases hvn : v = node
        · subst hvn; exact hdeps w hedge
        · exact hinv2.1 v w (hdown v hvn hv) hedge
      · intro v hv hcyc
        by_cases hvn : v = node
        · subst hvn
          obtain ⟨w, hedge, hback⟩ := Relation.TransGen.head'_iff.mp hcyc
          have hw := visited_of_reach hinv2.1 (hdeps w hedge) hback
          rw [hnode2] at hw
          cases hw
        · exact hinv2.2.1 v (hdown v hvn hv) hcyc
      · intro v hv
        by_cases hvn : v = node
        · subst hvn; simp at hv
        · have hv2 : st2.visiting v = true := by
            simpa [Function.update, hvn] using hv
          have := hinv2.2.2 v hv2
          simpa [Function.update, hvn] using this

/-! ## `DFS`: the fuel supplied by `Graph.DFS` is never exhausted -/

theorem white_length_le_of_grows (g : Graph) {s s1 : DfsState} (h : Grows s s1) :
    (white g s1).length ≤ (white g s).length := by
  apply List.Sublist.length_le
  apply List.monotone_filter_right
  intro k hk
  rw [h.1] at hk
  cases hvd : s.visited k with
  | false => simp at hk; simp [hk.1]
  | true => simp [h.2 k hvd] at hk

theorem white_length_lt_of_enter (g : Graph) {s : DfsState} {node : String}
    (hmem : node ∈ g.Edges) (hvis : s.visiting node = false) (hvd : s.visited node = false) :
    (white g ⟨Function.update s.visiting node true, s.visited⟩).length
      < (white g s).length := by
  have hfil : white g ⟨Function.update s.visiting node true, s.visited⟩
      = (white g s).filter (fun k => decide (k ≠ node)) := by
    unfold white
    rw [List.filter_filter]
    apply List.filter_congr
    intro k _
    by_cases hk : k = node
    · subst hk; simp
    · simp [Function.update, hk]
  rw [hfil]
  apply List.length_filter_lt_length_iff_exists.mpr
  refine ⟨node, ?_, by simp⟩
  unfold white
  rw [List.mem_filter]
  exact ⟨AList.mem_keys.mp hmem, by simp [hvis, hvd]⟩

theorem white_init_length (g : Graph) : (white g DfsState.init).length < g.dfsFuel := by
  have := List.length_filter_le (fun k => !DfsState.init.visiting k && !DfsState.init.visited k)
    g.Edges.keys
  unfold white Graph.dfsFuel
  omega

theorem visitAll_total {g : Graph} {fuel : Nat}
    {call : String → DfsState → Option DfsResult}
    (hg : ∀ x s s1, call x s = some (.ok s1) → Grows s s1)
    (hcall : ∀ x s, (white g s).length < fuel → ∃ r, call x s = some r) :
    ∀ (xs : List String) (st : DfsState), (white g st).length < fuel →
      ∃ r, visitAll call xs st = some r := by
  intro xs
  induction xs with
  | nil => intro st _; exact ⟨.ok st, rfl⟩
  | cons x rest ih =>
    intro st hlt
    obtain ⟨r, hr⟩ := hcall x st hlt
    cases r with
    | error e => exact ⟨.error e, visitAll_cons_error hr⟩
    | ok st1 =>
      rw [visitAll_cons_ok hr]
      exact ih st1 (lt_of_le_of_lt (white_length_le_of_grows g (hg x st st1 hr)) hlt)

theorem dfs_total (g : Graph) : ∀ (fuel : Nat) (node : String) (st : DfsState),
    (white g st).length < fuel → ∃ r, dfs g fuel node st = some r := by
  intro fuel
  induction fuel with
  | zero => intro node st h; omega
  | succ fuel ih =>
    intro node st hlt
    by_cases h1 : st.visiting node = true
    · exact ⟨.error ⟨node⟩, by simp [dfs, h1]⟩
    · have h1f : st.visiting node = false := by simpa using h1
      by_cases h2 : st.visited node = true
      · exact ⟨.ok st, by simp [dfs, h1f, h2]⟩
      · have h2f : st.visited node = false := by simpa using h2
        have hloop : ∃ r, visitAll (dfs g fuel) (g.adj node)
            ⟨Function.update st.visiting node true, st.visited⟩ = some r := by
          by_cases hmem : node ∈ g.Edges
          · apply visitAll_total (dfs_grows g fuel) ih
            have := white_length_lt_of_enter g hmem h1f h2f
            omega
          · rw [adj_of_not_mem hmem]
            exact ⟨_, rfl⟩
        obtain ⟨r, hr⟩ := hloop
        cases r with
        | error e => exact ⟨.error e, by simp [dfs, h1f, h2f, hr]⟩
        | ok st1 =>
          exact ⟨.ok ⟨Function.update st1.visiting node false,
            Function.update st1.visited node true⟩, by simp [dfs, h1f, h2f, hr]⟩

theorem DfsInv_init (g : Graph) : DfsInv g DfsState.init :=
  ⟨fun v w hv _ => by simp [DfsState.init] at hv,
   fun v hv => by simp [DfsState.init] at hv,
   fun v hv => by simp [DfsState.init] at hv⟩

/-- `DFS` always returns: the recursion never needs more depth than the fuel supplied. -/
theorem DFS_total (g : Graph) (roots : List String) : ∃ r, g.DFS roots = some r := by
  obtain ⟨r, hr⟩ := visitAll_total (dfs_grows g g.dfsFuel) (dfs_total g g.dfsFuel) roots
    DfsState.init (white_init_length g)
  cases r with
  | error e => exact ⟨some e, by simp [Graph.DFS, hr]⟩
  | ok st => exact ⟨none, by simp [Graph.DFS, hr]⟩

/-- If `DFS` returns `nil`, no node reachable from a root lies on a cycle. -/
theorem DFS_nil_no_cycle {g : Graph} {roots : List String} (h : g.DFS roots = some none) :
    ∀ r ∈ roots, ∀ n, g.Reach r n → ¬ g.OnCycle n := by
  unfold Graph.DFS at h
  cases hv : visitAll (dfs g g.dfsFuel) roots DfsState.init with
  | none => rw [hv] at h; cases h
  | some res =>
    rw [hv] at h
    cases res with
    | error e => cases h
    | ok st =>
      obtain ⟨hinv, hroots⟩ :=
        visitAll_inv (dfs_grows g g.dfsFuel) (dfs_inv g g.dfsFuel) roots _ st (DfsInv_init g) hv
      intro r hr n hreach
      exact hinv.2.1 n (visited_of_reach hinv.1 (hroots r hr) hreach)

/-- If `DFS` returns an error, its node is reachable from a root and lies on a cycle. -/
theorem DFS_error_reach_cycle {g : Graph} {roots : List String} {e : CycleError}
    (h : g.DFS roots = some (some e)) :
    (∃ r ∈ roots, g.Reach r e.node) ∧ g.OnCycle e.node := by
  unfold Graph.DFS at h
  cases hv : visitAll (dfs g g.dfsFuel) roots DfsState.init with
  | none => rw [hv] at h; cases h
  | some res =>
    rw [hv] at h
    cases res with
    | ok st => cases h
    | error e1 =>
      simp only [Option.some.injEq] at h
      subst h
      obtain ⟨x, hx, hreach, hcyc⟩ :=
        visitAll_error_sound (dfs_grows g g.dfsFuel) (dfs_error_sound g g.dfsFuel) roots
          DfsState.init e1 (fun x _ v hv => by simp [DfsState.init] at hv) hv
      exact ⟨⟨x, hx, hreach⟩, hcyc⟩

theorem DFS_nil_iff (g : Graph) (roots : List String) :
    g.DFS roots = some none ↔ ∀ r ∈ roots, ∀ n, g.Reach r n → ¬ g.OnCycle n := by
  constructor
  · exact DFS_nil_no_cycle
  · intro hno
    obtain ⟨r, hr⟩ := DFS_total g roots
    cases r with
    | none => exact hr
    | some e =>
      obtain ⟨⟨x, hx, hreach⟩, hcyc⟩ := DFS_error_reach_cycle hr
      exact absurd hcyc (hno x hx _ hreach)

/-! ## `DFS` on the cycle `n1 -> n2 -> ... -> nk -> n1` -/

theorem adj_foldl_apply (ops : List Op) : ∀ (g : Graph) (x : String),
    (ops.foldl Graph.apply g).adj x = g.adj x ++ outOf ops x := by
  induction ops with
  | nil => intro g x; simp [outOf]
  | cons op ops ih =>
    intro g x
    rw [List.foldl_cons, ih]
    cases op with
    | addNode n => simp [Graph.apply, outOf, adj_AddNode]
    | addEdge a b =>
      by_cases hax : a = x
      · subst hax
        simp [Graph.apply, outOf, adj_AddEdge_self]
      · have hxa : x ≠ a := fun h => hax h.symm
        simp [Graph.apply, outOf, hax, adj_AddEdge_ne g a b hxa]

theorem adj_build (ops : List Op) (x : String) : (build ops).adj x = outOf ops x := by
  unfold build
  rw [adj_foldl_apply]
  simp [NewGraph, Graph.adj]

theorem outOf_cons_edge_self (a b : String) (ops : List Op) :
    outOf (.addEdge a b :: ops) a = b :: outOf ops a := by
  simp [outOf]

theorem outOf_cons_edge_ne {a x : String} (b : String) (ops : List Op) (h : a ≠ x) :
    outOf (.addEdge a b :: ops) x = outOf ops x := by
  simp [outOf, h]

theorem outOf_append (xs ys : List Op) (x : String) :
    outOf (xs ++ ys) x = outOf xs x ++ outOf ys x := by
  induction xs with
  | nil => simp [outOf]
  | cons op xs ih =>
    cases op with
    | addNode n => simpa [outOf] using ih
    | addEdge a b =>
      by_cases hax : a = x
      · simp [outOf, hax, ih]
      · simp [outOf, hax, ih]

theorem outOf_chainOps_of_not_mem : ∀ (ns : List String) (x : String), x ∉ ns →
    outOf (chainOps ns) x = []
  | [], _, _ => by simp [chainOps, outOf]
  | [_], _, _ => by simp [chainOps, outOf]
  | a :: b :: rest, x, h => by
    have hax : a ≠ x := fun e => h (e ▸ List.mem_cons_self _ _)
    have hx : x ∉ b :: rest := fun hm => h (List.mem_cons_of_mem _ hm)
    simp [chainOps, outOf, hax, outOf_chainOps_of_not_mem (b :: rest) x hx]

theorem getLastD_mem_cons (rest : List String) (m : String) : rest.getLastD m ∈ m :: rest := by
  induction rest generalizing m with
  | nil => simp
  | cons a rest ih =>
    rw [List.getLastD_cons]
    exact List.mem_cons_of_mem _ (ih a)

/-- In the graph of the closed chain every listed name has exactly its successor as
dependent. -/
theorem outOf_closed_chain : ∀ (m : String) (rest : List String) (t x : String),
    (m :: rest).Nodup → x ∈ m :: rest →
    outOf (chainOps (m :: rest) ++ [.addEdge (rest.getLastD m) t]) x
      = [succIn (m :: rest) t x]
  | m, [], t, x, _, hx => by
    have hxm : x = m := by simpa using hx
    subst hxm
    simp [chainOps, outOf, succIn]
  | m, b :: rest, t, x, hnd, hx => by
    have hnd1 : (b :: rest).Nodup := (List.nodup_cons.mp hnd).2
    have hm : m ∉ b :: rest := (List.nodup_cons.mp hnd).1
    rw [List.getLastD_cons]
    by_cases hxm : x = m
    · subst hxm
      have hlast : rest.getLastD b ≠ x := fun e => hm (e ▸ getLastD_mem_cons rest b)
      have hch : chainOps (x :: b :: rest) = .addEdge x b :: chainOps (b :: rest) := rfl
      rw [hch, List.cons_append, outOf_cons_edge_self, outOf_append,
        outOf_chainOps_of_not_mem (b :: rest) x hm, outOf_cons_edge_ne _ _ hlast]
      simp [outOf, succIn]
    · have hx1 : x ∈ b :: rest := by
        rcases List.mem_cons.mp hx with h | h
        · exact absurd h hxm
        · exact h
      have hmx : m ≠ x := fun e => hxm e.symm
      have ih := outOf_closed_chain b rest t x hnd1 hx1
      have hch : chainOps (m :: b :: rest) = .addEdge m b :: chainOps (b :: rest) := rfl
      rw [hch, List.cons_append, outOf_cons_edge_ne _ _ hmx, ih]
      simp [succIn, hxm]

/-- Following a chain of unmarked nodes that ends in a node marked `visiting` reports that
node. -/
theorem dfs_chain (g : Graph) (t : String) : ∀ (ns : List String) (st : DfsState) (fuel : Nat),
    (∀ x ∈ ns, g.adj x = [succIn ns t x]) → st.visiting t = true →
    (∀ x ∈ ns, st.visiting x = false ∧ st.visited x = false) → ns.Nodup →
    ns.length < fuel → dfs g fuel (ns.headD t) st = some (.error ⟨t⟩) := by
  intro ns
  induction ns with
  | nil =>
    intro st fuel _ hvis _ _ hfuel
    obtain ⟨f, rfl⟩ : ∃ f, fuel = f + 1 := ⟨fuel - 1, by simp at hfuel; omega⟩
    simp [dfs, hvis]
  | cons m rest ih =>
    intro st fuel hadj hvis hwhite hnd hfuel
    obtain ⟨f, rfl⟩ : ∃ f, fuel = f + 1 := ⟨fuel - 1, by simp at hfuel; omega⟩
    have hm := hwhite m (List.mem_cons_self _ _)
    have hmrest : m ∉ rest := (List.nodup_cons.mp hnd).1
    have hadjm : g.adj m = [rest.headD t] := by
      rw [hadj m (List.mem_cons_self _ _)]
      simp [succIn]
    have hrec : dfs g f (rest.headD t) ⟨Function.update st.visiting m true, st.visited⟩
        = some (.error ⟨t⟩) := by
      apply ih
      · intro x hx
        have hxm : x ≠ m := fun e => hmrest (e ▸ hx)
        rw [hadj x (List.mem_cons_of_mem _ hx)]
        simp [succIn, hxm]
      · by_cases htm : t = m
        · subst htm; simp
        · simpa [Function.update, htm] using hvis
      · intro x hx
        have hxm : x ≠ m := fun e => hmrest (e ▸ hx)
        have := hwhite x (List.mem_cons_of_mem _ hx)
        simpa [Function.update, hxm] using this
      · exact (List.nodup_cons.mp hnd).2
      · simp at hfuel; omega
    have hloop : visitAll (dfs g f) [rest.headD t]
        ⟨Function.update st.visiting m true, st.visited⟩ = some (.error ⟨t⟩) :=
      visitAll_cons_error hrec
    show dfs g (f + 1) m st = some (.error ⟨t⟩)
    simp only [dfs, hm.1, hm.2, Bool.false_eq_true, if_false, hadjm, hloop]

theorem length_le_keys_of_adj_ne_nil (g : Graph) (ns : List String) (hnd : ns.Nodup)
    (h : ∀ x ∈ ns, g.adj x ≠ []) : ns.length ≤ g.Edges.keys.length := by
  apply List.Subperm.length_le
  apply List.subperm_of_subset hnd
  intro x hx
  by_contra hmem
  exact h x hx (adj_of_not_mem (fun hk => hmem (AList.mem_keys.mp hk)))

theorem DFS_cycleOps (n1 : String) (rest : List String) (h : (n1 :: rest).Nodup) :
    (build (cycleOps n1 rest)).DFS [n1] = some (some ⟨n1⟩) := by
  have hadj : ∀ x ∈ n1 :: rest,
      (build (cycleOps n1 rest)).adj x = [succIn (n1 :: rest) n1 x] := by
    intro x hx
    rw [adj_build]
    exact outOf_closed_chain n1 rest n1 x h hx
  have hlen : (n1 :: rest).length ≤ (build (cycleOps n1 rest)).Edges.keys.length := by
    apply length_le_keys_of_adj_ne_nil _ _ h
    intro x hx
    rw [hadj x hx]
    simp
  have hn1 : n1 ∉ rest := (List.nodup_cons.mp h).1
  have hrec : dfs (build (cycleOps n1 rest)) (build (cycleOps n1 rest)).Edges.keys.length
      (rest.headD n1) ⟨Function.update DfsState.init.visiting n1 true, DfsState.init.visited⟩
      = some (.error ⟨n1⟩) := by
    apply dfs_chain
    · intro x hx
      have hxm : x ≠ n1 := fun e => hn1 (e ▸ hx)
      rw [hadj x (List.mem_cons_of_mem _ hx)]
      simp [succIn, hxm]
    · simp
    · intro x hx
      have hxm : x ≠ n1 := fun e => hn1 (e ▸ hx)
      simp [DfsState.init, Function.update, hxm]
    · exact (List.nodup_cons.mp h).2
    · simp at hlen; omega
  have hadj1 : (build (cycleOps n1 rest)).adj n1 = [rest.headD n1] := by
    rw [hadj n1 (List.mem_cons_self _ _)]
    simp [succIn]
  have hcall : dfs (build (cycleOps n1 rest)) (build (cycleOps n1 rest)).dfsFuel n1
      DfsState.init = some (.error ⟨n1⟩) := by
    unfold Graph.dfsFuel
    simp only [dfs, hadj1, visitAll_cons_error hrec]
    simp [DfsState.init]
  simp [Graph.DFS, visitAll_cons_error hcall]

theorem mem_of_onCycle {g : Graph} {n : String} (h : g.OnCycle n) : n ∈ g.Edges := by
  obtain ⟨w, hedge, _⟩ := Relation.TransGen.head'_iff.mp h
  exact mem_of_edge hedge

/-- A graph on which `DFS` of all keys returns `nil` is acyclic. -/
theorem acyclic_of_DFS_keys {g : Graph} (h : g.DFS g.Edges.keys = some none) : g.Acyclic :=
  fun n hcyc => DFS_nil_no_cycle h n (AList.mem_keys.mp (mem_of_onCycle hcyc)) n
    Relation.ReflTransGen.refl hcyc

theorem fixture_acyclic : fixture.Acyclic := acyclic_of_DFS_keys (by decide)

/-! ## Claims about `DFS` -/

/-- C3: `DFS(roots)` returns `nil` if and only if no node that is reachable from a root by zero
or more edges lies on a cycle; in particular it returns `nil` for every root list on an acyclic
graph. -/
theorem DFS_nil_iff_no_reachable_cycle (g : Graph) (roots : List String) :
    (g.DFS roots = some none ↔ ∀ r ∈ roots, ∀ n, g.Reach r n → ¬ g.OnCycle n) ∧
    (g.Acyclic → g.DFS roots = some none) :=
  ⟨DFS_nil_iff g roots, fun hac => (DFS_nil_iff g roots).mpr (fun _ _ n _ => hac n)⟩

/-- C4: whenever `DFS(roots)` returns an error, the node it names is reachable from some root
by zero or more edges and reaches itself by one or more edges. -/
theorem DFS_error_node_on_reachable_cycle (g : Graph) (roots : List String) (e : CycleError)
    (h : g.DFS roots = some (some e)) :
    (∃ r ∈ roots, g.Reach r e.node) ∧ g.OnCycle e.node :=
  DFS_error_reach_cycle h

/-- Witness for C3: the fixture is acyclic, so `DFS` of the root `A` returns `nil`; and `DFS` of
the roots `B, A` returns `nil`, so no node reachable from them lies on a cycle. -/
theorem DFS_nil_iff_no_reachable_cycle_witness :
    (fixture.Acyclic ∧ fixture.DFS ["A"] = some none) ∧
    (fixture.DFS ["B", "A"] = some none ∧
      ∀ r ∈ ["B", "A"], ∀ n, fixture.Reach r n → ¬ fixture.OnCycle n) :=
  ⟨⟨fixture_acyclic, (DFS_nil_iff_no_reachable_cycle fixture ["A"]).2 fixture_acyclic⟩,
   ⟨by decide, (DFS_nil_iff_no_reachable_cycle fixture ["B", "A"]).1.mp (by decide)⟩⟩

/-- Witness for C4: on the 3-cycle `DFS` of the root `A` reports `A`, which lies on a cycle. -/
theorem DFS_error_node_on_reachable_cycle_witness :
    cycle3.DFS ["A"] = some (some ⟨"A"⟩) ∧
    ((∃ r ∈ ["A"], cycle3.Reach r "A") ∧ cycle3.OnCycle "A") :=
  ⟨by decide, DFS_error_node_on_reachable_cycle cycle3 ["A"] ⟨"A"⟩ (by decide)⟩

/-- C8: for pairwise distinct names `n1, ..., nk` (`k >= 1`), on the graph built by
`AddEdge(n1,n2), ..., AddEdge(n(k-1),nk), AddEdge(nk,n1)` the call `DFS([n1])` returns an error
that names `n1`. -/
theorem DFS_cycle_names_first (n1 : String) (rest : List String) (h : (n1 :: rest).Nodup) :
    (build (cycleOps n1 rest)).DFS [n1] = some (some ⟨n1⟩) :=
  DFS_cycleOps n1 rest h

/-- Witness for C8: the 3-cycle `A -> B -> C -> A` and the self-loop `A -> A` both name `A`. -/
theorem DFS_cycle_names_first_witness :
    (["A", "B", "C"].Nodup ∧ build (cycleOps "A" ["B", "C"]) = cycle3 ∧
      cycle3.DFS ["A"] = some (some ⟨"A"⟩)) ∧
    (["A"].Nodup ∧ build (cycleOps "A" []) = selfLoop ∧
      selfLoop.DFS ["A"] = some (some ⟨"A"⟩)) :=
  ⟨⟨by decide, rfl, DFS_cycle_names_first "A" ["B", "C"] (by decide)⟩,
   ⟨by decide, rfl, DFS_cycle_names_first "A" [] (by decide)⟩⟩

/-! ## `TopoSort`: the in-degree table -/

theorem degOf_insert_self (m : GoMap Int) (k : String) (v : Int) :
    degOf (m.insert k v) k = v := by
  simp [degOf, AList.lookup_insert]

theorem degOf_insert_ne (m : GoMap Int) {k y : String} (v : Int) (h : y ≠ k) :
    degOf (m.insert k v) y = degOf m y := by
  simp [degOf, AList.lookup_insert_ne h]

theorem degOf_of_not_mem {m : GoMap Int} {k : String} (h : k ∉ m) : degOf m k = 0 := by
  simp [degOf, AList.lookup_eq_none.mpr h]

theorem degOf_countDeps (l : List String) : ∀ (m : GoMap Int) (y : String),
    degOf (countDeps l m) y = degOf m y + (l.count y : Int) := by
  induction l with
  | nil => intro m y; simp [countDeps]
  | cons d rest ih =>
    intro m y
    rw [countDeps, ih]
    by_cases hy : y = d
    · subst hy
      rw [degOf_insert_self, List.count_cons_self]
      push_cast
      ring
    · have hdy : d ≠ y := fun e => hy e.symm
      rw [degOf_insert_ne m _ hy, List.count_cons_of_ne hy]

theorem mem_countDeps (l : List String) : ∀ (m : GoMap Int) (y : String),
    y ∈ countDeps l m ↔ y ∈ m ∨ y ∈ l := by
  induction l with
  | nil => intro m y; simp [countDeps]
  | cons d rest ih =>
    intro m y
    rw [countDeps, ih, AList.mem_insert, List.mem_cons]
    tauto

theorem degOf_countInDegree (g : Graph) (order : List String) :
    ∀ (m : GoMap Int) (y : String),
    degOf (countInDegree g order m) y = degOf m y + (inEdges g order y : Int) := by
  induction order with
  | nil => intro m y; simp [countInDegree, inEdges]
  | cons node rest ih =>
    intro m y
    have hm1 : degOf (if node ∈ m then m else m.insert node 0) y = degOf m y := by
      split
      · rfl
      · next hx =>
        by_cases hy : y = node
        · subst hy
          rw [degOf_insert_self, degOf_of_not_mem hx]
        · exact degOf_insert_ne m 0 hy
    simp only [countInDegree]
    rw [ih, degOf_countDeps, hm1]
    simp only [inEdges, List.map_cons, List.sum_cons]
    push_cast
    ring

theorem mem_countInDegree (g : Graph) (order : List String) :
    ∀ (m : GoMap Int) (y : String),
    y ∈ countInDegree g order m ↔ y ∈ m ∨ y ∈ order ∨ ∃ x ∈ order, y ∈ g.adj x := by
  induction order with
  | nil => intro m y; simp [countInDegree]
  | cons node rest ih =>
    intro m y
    have hm1 : y ∈ (if node ∈ m then m else m.insert node 0) ↔ y ∈ m ∨ y = node := by
      split
      · next hx =>
        constructor
        · exact fun h => Or.inl h
        · rintro (h | rfl)
          · exact h
          · exact hx
      · rw [AList.mem_insert]; tauto
    simp only [countInDegree]
    rw [ih, mem_countDeps, hm1]
    simp only [List.mem_cons, exists_eq_or_imp]
    tauto

theorem inEdges_perm (g : Graph) {xs ys : List String} (h : xs.Perm ys) (y : String) :
    inEdges g xs y = inEdges g ys y :=
  (h.map _).sum_eq

theorem pending_nil (g : Graph) (y : String) : pending g [] y = inEdges g g.Edges.keys y := by
  simp [pending, pendingIn, inEdges]

/-- After the first loop the table holds, for every name, the number of stored edges into it. -/
theorem degOf_inDegree (g : Graph) {order : List String} (h : IterOrder g.Edges order)
    (y : String) : degOf (g.inDegree order) y = (pending g [] y : Int) := by
  unfold Graph.inDegree
  rw [degOf_countInDegree, pending_nil, inEdges_perm g h]
  simp [degOf]

/-- The keys of the in-degree table are the keys of `Edges` and the edge targets. -/
theorem mem_inDegree (g : Graph) {order : List String} (h : IterOrder g.Edges order)
    (y : String) : y ∈ g.inDegree order ↔ y ∈ g.Edges ∨ ∃ x, g.Edge x y := by
  unfold Graph.inDegree
  rw [mem_countInDegree]
  have hmem : ∀ x, x ∈ order ↔ x ∈ g.Edges := fun x => by
    rw [h.mem_iff, AList.mem_keys]
  constructor
  · rintro (h1 | h1 | ⟨x, _, hx⟩)
    · exact absurd h1 (AList.not_mem_empty y)
    · exact Or.inl ((hmem y).mp h1)
    · exact Or.inr ⟨x, hx⟩
  · rintro (h1 | ⟨x, hx⟩)
    · exact Or.inr (Or.inl ((hmem y).mpr h1))
    · exact Or.inr (Or.inr ⟨x, (hmem x).mpr (mem_of_edge hx), hx⟩)

theorem seedQueue_eq_filter (inDegree : GoMap Int) (order : List String) :
    seedQueue inDegree order = order.filter (fun n => decide (degOf inDegree n = 0)) := by
  unfold seedQueue
  have key : ∀ (l acc : List String),
      l.foldl (fun queue node => if degOf inDegree node = 0 then queue ++ [node] else queue) acc
        = acc ++ l.filter (fun n => decide (degOf inDegree n = 0)) := by
    intro l
    induction l with
    | nil => intro acc; simp
    | cons a rest ih =>
      intro acc
      rw [List.foldl_cons, ih]
      by_cases ha : degOf inDegree a = 0
      · simp [ha]
      · simp [ha]
  simpa using key order []

/-! ## `TopoSort`: the loop over the dependents of a dequeued node -/

theorem relax_cons (d : String) (rest q : List String) (deg : GoMap Int) :
    relax (d :: rest) (q, deg)
      = relax rest
          (if degOf (deg.insert d (degOf deg d - 1)) d = 0 then q ++ [d] else q,
            deg.insert d (degOf deg d - 1)) := rfl

theorem degOf_relax (l : List String) : ∀ (q : List String) (deg : GoMap Int) (y : String),
    degOf (relax l (q, deg)).2 y = degOf deg y - (l.count y : Int) := by
  induction l with
  | nil => intro q deg y; simp [relax]
  | cons d rest ih =>
    intro q deg y
    rw [relax_cons, ih]
    by_cases hy : y = d
    · subst hy
      rw [degOf_insert_self, List.count_cons_self]
      push_cast
      ring
    · rw [degOf_insert_ne deg _ hy, List.count_cons_of_ne hy]

/-- The loop appends to the queue exactly the dependents whose counter equals their number of
occurrences in the list, each once. -/
theorem relax_queue (l : List String) : ∀ (q : List String) (deg : GoMap Int),
    (∀ y ∈ l, (l.count y : Int) ≤ degOf deg y) →
    ∃ nw, (relax l (q, deg)).1 = q ++ nw ∧ nw.Nodup ∧
      ∀ y, y ∈ nw ↔ (y ∈ l ∧ degOf deg y = (l.count y : Int)) := by
  induction l with
  | nil => intro q deg _; exact ⟨[], by simp [relax], List.nodup_nil, by simp⟩
  | cons d rest ih =>
    intro q deg hpre
    have hd1 : degOf (deg.insert d (degOf deg d - 1)) d = degOf deg d - 1 :=
      degOf_insert_self _ _ _
    have hne : ∀ y, y ≠ d → degOf (deg.insert d (degOf deg d - 1)) y = degOf deg y :=
      fun y hy => degOf_insert_ne deg _ hy
    have hcd : ((d :: rest).count d : Int) = (rest.count d : Int) + 1 := by
      rw [List.count_cons_self]; push_cast; ring
    have hpd := hpre d (List.mem_cons_self _ _)
    have hpre1 : ∀ y ∈ rest,
        (rest.count y : Int) ≤ degOf (deg.insert d (degOf deg d - 1)) y := by
      intro y hy
      by_cases hyd : y = d
      · subst hyd
        rw [hd1]
        omega
      · rw [hne y hyd]
        have := hpre y (List.mem_cons_of_mem _ hy)
        rwa [List.count_cons_of_ne hyd] at this
    have hpos : ∀ y, y ∈ rest ↔ 0 < (rest.count y : Int) := by
      intro y
      rw [← List.count_pos_iff]
      omega
    by_cases hz : degOf (deg.insert d (degOf deg d - 1)) d = 0
    · obtain ⟨nw1, h1, h2, h3⟩ := ih (q ++ [d]) _ hpre1
      have hdrest : d ∉ rest := by
        rw [hpos]
        omega
      refine ⟨d :: nw1, ?_, ?_, ?_⟩
      · rw [relax_cons, if_pos hz, h1]
        simp
      · refine List.nodup_cons.mpr ⟨?_, h2⟩
        intro hmem
        exact hdrest ((h3 d).mp hmem).1
      · intro y
        rw [List.mem_cons, h3, List.mem_cons]
        by_cases hyd : y = d
        · subst hyd
          constructor
          · intro _
            exact ⟨Or.inl rfl, by omega⟩
          · intro _
            exact Or.inl rfl
        · rw [hne y hyd, List.count_cons_of_ne hyd]
          simp [hyd]
    · obtain ⟨nw1, h1, h2, h3⟩ := ih q _ hpre1
      refine ⟨nw1, ?_, h2, ?_⟩
      · rw [relax_cons, if_neg hz, h1]
      · intro y
        rw [h3, List.mem_cons]
        by_cases hyd : y = d
        · subst hyd
          constructor
          · rintro ⟨hm, he⟩
            exact ⟨Or.inl rfl, by omega⟩
          · rintro ⟨_, he⟩
            have hcnt : degOf (deg.insert y (degOf deg y - 1)) y = (rest.count y : Int) := by
              omega
            refine ⟨?_, hcnt⟩
            rw [hpos]
            omega
        · rw [hne y hyd, List.count_cons_of_ne hyd]
          simp [hyd]

/-! ## `TopoSort`: edges whose source is still to be emitted -/

theorem pendingIn_cons (g : Graph) (k : String) (ks done : List String) (y : String) :
    pendingIn g (k :: ks) done y
      = (if k ∈ done then 0 else (g.adj k).count y) + pendingIn g ks done y := by
  simp [pendingIn]

theorem pendingIn_snoc (g : Graph) (y x : String) (done : List String) (hx : x ∉ done) :
    ∀ ks : List String, ks.Nodup →
    pendingIn g ks (done ++ [x]) y + (if x ∈ ks then (g.adj x).count y else 0)
      = pendingIn g ks done y := by
  intro ks
  induction ks with
  | nil => intro _; simp [pendingIn]
  | cons k ks ih =>
    intro hnd
    have hk : k ∉ ks := (List.nodup_cons.mp hnd).1
    have ih1 := ih (List.nodup_cons.mp hnd).2
    rw [pendingIn_cons, pendingIn_cons]
    by_cases hkx : k = x
    · subst hkx
      simp only [hk, if_false] at ih1
      simp only [List.mem_append, List.mem_singleton, or_true, if_true, hx, if_false,
        List.mem_cons, true_or]
      omega
    · have hxk : x ≠ k := fun e => hkx e.symm
      have hmem : k ∈ done ++ [x] ↔ k ∈ done := by simp [hkx]
      have hxin : x ∈ k :: ks ↔ x ∈ ks := by simp [hxk]
      simp only [hmem, hxin]
      omega

theorem pending_snoc (g : Graph) (y x : String) (done : List String) (hx : x ∉ done) :
    pending g (done ++ [x]) y + (g.adj x).count y = pending g done y := by
  have h := pendingIn_snoc g y x done hx g.Edges.keys g.Edges.keys_nodup
  unfold pending
  by_cases hmem : x ∈ g.Edges.keys
  · simpa [hmem] using h
  · have hadj : g.adj x = [] := adj_of_not_mem (fun hk => hmem (AList.mem_keys.mp hk))
    simpa [hmem, hadj] using h

theorem pending_eq_zero_iff (g : Graph) (done : List String) (y : String) :
    pending g done y = 0 ↔ ∀ x, g.Edge x y → x ∈ done := by
  unfold pending pendingIn
  rw [List.sum_eq_zero_iff]
  constructor
  · intro h x hedge
    by_contra hx
    have hmem : x ∈ g.Edges.keys := AList.mem_keys.mp (mem_of_edge hedge)
    have h0 := h ((g.adj x).count y)
      (List.mem_map.mpr ⟨x, hmem, by simp [hx]⟩)
    exact (List.count_eq_zero.mp h0) hedge
  · intro h v hv
    obtain ⟨k, _, hk⟩ := List.mem_map.mp hv
    by_cases hkd : k ∈ done
    · simpa [hkd] using hk.symm
    · rw [if_neg hkd] at hk
      rw [← hk]
      apply List.count_eq_zero.mpr
      intro hedge
      exact hkd (h k hedge)

/-! ## `TopoSort`: positions in the result -/

theorem Before.append_right {l : List String} {a b : String} (h : Before l a b)
    (m : List String) : Before (l ++ m) a b := by
  obtain ⟨i, j, hij, hi, hj⟩ := h
  have hjl : j < l.length := (List.getElem?_eq_some.mp hj).1
  refine ⟨i, j, hij, ?_, ?_⟩
  · rw [List.getElem?_append_left (by omega)]; exact hi
  · rw [List.getElem?_append_left hjl]; exact hj

theorem Before.of_mem_append {l m : List String} {a b : String} (ha : a ∈ l) (hb : b ∈ m) :
    Before (l ++ m) a b := by
  obtain ⟨i, hi⟩ := List.mem_iff_getElem?.mp ha
  obtain ⟨k, hk⟩ := List.mem_iff_getElem?.mp hb
  have hil : i < l.length := (List.getElem?_eq_some.mp hi).1
  refine ⟨i, l.length + k, by omega, ?_, ?_⟩
  · rw [List.getElem?_append_left hil]; exact hi
  · rw [List.getElem?_append_right (by omega)]
    simpa using hk

theorem Before.mem_left {l : List String} {a b : String} (h : Before l a b) : a ∈ l := by
  obtain ⟨i, _, _, hi, _⟩ := h
  exact List.mem_iff_getElem?.mpr ⟨i, hi⟩

theorem Before.mem_right {l : List String} {a b : String} (h : Before l a b) : b ∈ l := by
  obtain ⟨_, j, _, _, hj⟩ := h
  exact List.mem_iff_getElem?.mpr ⟨j, hj⟩

theorem index_unique {l : List String} (hnd : l.Nodup) {i j : Nat} {a : String}
    (hi : l[i]? = some a) (hj : l[j]? = some a) : i = j := by
  obtain ⟨hil, hia⟩ := List.getElem?_eq_some.mp hi
  obtain ⟨hjl, hja⟩ := List.getElem?_eq_some.mp hj
  exact (hnd.getElem_inj_iff).mp (hia.trans hja.symm)

theorem Before.trans {l : List String} (hnd : l.Nodup) {a b c : String}
    (h1 : Before l a b) (h2 : Before l b c) : Before l a c := by
  obtain ⟨i, j, hij, hi, hj⟩ := h1
  obtain ⟨j1, k, hjk, hj1, hk⟩ := h2
  have := index_unique hnd hj hj1
  exact ⟨i, k, by omega, hi, hk⟩

theorem Before.irrefl {l : List String} (hnd : l.Nodup) {a : String} : ¬ Before l a a := by
  rintro ⟨i, j, hij, hi, hj⟩
  have := index_unique hnd hi hj
  omega

theorem Before.reverse {l : List String} {a b : String} (h : Before l a b) :
    Before l.reverse b a := by
  obtain ⟨i, j, hij, hi, hj⟩ := h
  have hjl : j < l.length := (List.getElem?_eq_some.mp hj).1
  refine ⟨l.length - 1 - j, l.length - 1 - i, by omega, ?_, ?_⟩
  · rw [List.getElem?_reverse (by omega)]
    have : l.length - 1 - (l.length - 1 - j) = j := by omega
    rw [this]; exact hj
  · rw [List.getElem?_reverse (by omega)]
    have : l.length - 1 - (l.length - 1 - i) = i := by omega
    rw [this]; exact hi

/-! ## `TopoSort`: the queue loop -/

theorem kahnLoop_nil (g : Graph) (fuel : Nat) (deg : GoMap Int) (result : List String) :
    kahnLoop g fuel [] deg result = some result := by
  cases fuel <;> rfl

theorem kahnLoop_cons (g : Graph) (fuel : Nat) (x : String) (q : List String)
    (deg : GoMap Int) (result : List String) :
    kahnLoop g (fuel + 1) (x :: q) deg result
      = kahnLoop g fuel (relax (g.adj x) (q, deg)).1 (relax (g.adj x) (q, deg)).2
          (result ++ [x]) := rfl

/-- One iteration of the queue loop preserves the invariant. -/
theorem KInv.step {g : Graph} {dom q : List String} {deg : GoMap Int} {result : List String}
    {x : String} (hdom : ∀ a b, g.Edge a b → b ∈ dom)
    (inv : KInv g dom (x :: q) deg result) :
    KInv g dom (relax (g.adj x) (q, deg)).1 (relax (g.adj x) (q, deg)).2 (result ++ [x]) := by
  have hxres : x ∉ result := by
    have h := inv.nodup
    rw [List.nodup_append] at h
    intro hx
    exact h.2.2 hx (List.mem_cons_self _ _)
  have hsnoc : ∀ y, pending g (result ++ [x]) y + (g.adj x).count y = pending g result y :=
    fun y => pending_snoc g y x result hxres
  have hpre : ∀ y ∈ g.adj x, ((g.adj x).count y : Int) ≤ degOf deg y := by
    intro y _
    rw [inv.deg_eq]
    have := hsnoc y
    omega
  obtain ⟨nw, hq, hnwnd, hnw⟩ := relax_queue (g.adj x) q deg hpre
  have hlist : result ++ [x] ++ (relax (g.adj x) (q, deg)).1 = (result ++ x :: q) ++ nw := by
    rw [hq]; simp
  have hnw1 : ∀ y, y ∈ nw ↔ (y ∈ g.adj x ∧ pending g result y = (g.adj x).count y) := by
    intro y
    rw [hnw, inv.deg_eq]
    constructor
    · rintro ⟨h1, h2⟩; exact ⟨h1, by exact_mod_cast h2⟩
    · rintro ⟨h1, h2⟩; exact ⟨h1, by exact_mod_cast h2⟩
  have hcpos : ∀ y, y ∈ g.adj x ↔ 0 < (g.adj x).count y := fun y => List.count_pos_iff.symm
  have hdisj : ∀ y, y ∈ nw → y ∉ result ++ x :: q := by
    intro y hy hmem
    have h1 := (hnw1 y).mp hy
    have h2 := ((inv.mem_iff y).mp hmem).2
    have h3 := (hcpos y).mp h1.1
    omega
  refine ⟨?_, ?_, ?_, ?_⟩
  · rw [hlist, List.nodup_append]
    exact ⟨inv.nodup, hnwnd, fun a ha hb => hdisj a hb ha⟩
  · intro y
    rw [degOf_relax, inv.deg_eq]
    have := hsnoc y
    omega
  · intro y
    rw [hlist, List.mem_append]
    constructor
    · rintro (hy | hy)
      · have h1 := (inv.mem_iff y).mp hy
        exact ⟨h1.1, by have := hsnoc y; omega⟩
      · have h1 := (hnw1 y).mp hy
        exact ⟨hdom x y h1.1, by have := hsnoc y; omega⟩
    · rintro ⟨hyd, hy0⟩
      have h1 := hsnoc y
      by_cases hc : (g.adj x).count y = 0
      · exact Or.inl ((inv.mem_iff y).mpr ⟨hyd, by omega⟩)
      · refine Or.inr ((hnw1 y).mpr ⟨(hcpos y).mpr (by omega), by omega⟩)
  · intro a b hedge hb
    rw [hlist] at hb ⊢
    rcases List.mem_append.mp hb with hbl | hbn
    · exact (inv.before a b hedge hbl).append_right nw
    · have h1 := (hnw1 b).mp hbn
      have h0 : pending g (result ++ [x]) b = 0 := by have := hsnoc b; omega
      have ha : a ∈ result ++ [x] := (pending_eq_zero_iff g _ b).mp h0 a hedge
      have ha1 : a ∈ result ++ x :: q := by
        rcases List.mem_append.mp ha with h | h
        · exact List.mem_append_left _ h
        · rw [List.mem_singleton] at h
          subst h
          exact List.mem_append_right _ (List.mem_cons_self _ _)
      exact Before.of_mem_append ha1 hbn

/-- The queue loop returns before the fuel runs out, and the invariant holds for what it
returns. -/
theorem kahnLoop_spec {g : Graph} {dom : List String} (hdom : ∀ a b, g.Edge a b → b ∈ dom) :
    ∀ (fuel : Nat) (queue : List String) (deg : GoMap Int)
    (result : List String), KInv g dom queue deg result →
    dom.length ≤ result.length + fuel →
    ∃ res deg1, kahnLoop g fuel queue deg result = some res ∧ KInv g dom [] deg1 res := by
  intro fuel
  induction fuel with
  | zero =>
    intro queue deg result inv hlen
    cases queue with
    | nil => exact ⟨result, deg, kahnLoop_nil g 0 deg result, inv⟩
    | cons x q =>
      exfalso
      have hsub : result ++ x :: q ⊆ dom := fun y hy => ((inv.mem_iff y).mp hy).1
      have := (List.subperm_of_subset inv.nodup hsub).length_le
      simp at this
      omega
  | succ fuel ih =>
    intro queue deg result inv hlen
    cases queue with
    | nil => exact ⟨result, deg, kahnLoop_nil g _ deg result, inv⟩
    | cons x q =>
      rw [kahnLoop_cons]
      apply ih _ _ _ (inv.step hdom)
      simp
      omega

/-- The invariant holds when the queue loop is entered. -/
theorem KInv.init (g : Graph) {order1 order2 : List String} (h : g.Orders order1 order2) :
    KInv g (g.inDegree order1).keys (seedQueue (g.inDegree order1) order2)
      (g.inDegree order1) [] := by
  have hdeg := degOf_inDegree g h.1
  have hmem : ∀ y, y ∈ seedQueue (g.inDegree order1) order2 ↔
      (y ∈ (g.inDegree order1).keys ∧ pending g [] y = 0) := by
    intro y
    rw [seedQueue_eq_filter, List.mem_filter, h.2.mem_iff, decide_eq_true_eq, hdeg]
    constructor
    · rintro ⟨h1, h2⟩; exact ⟨h1, by exact_mod_cast h2⟩
    · rintro ⟨h1, h2⟩; exact ⟨h1, by exact_mod_cast h2⟩
  refine ⟨?_, hdeg, ?_, ?_⟩
  · rw [List.nil_append, seedQueue_eq_filter]
    exact (h.2.nodup_iff.mpr (AList.keys_nodup _)).filter _
  · intro y
    rw [List.nil_append]
    exact hmem y
  · intro x y hedge hy
    rw [List.nil_append] at hy
    have h0 := ((hmem y).mp hy).2
    have hx := (pending_eq_zero_iff g [] y).mp h0 x hedge
    exact absurd hx (List.not_mem_nil x)

/-! ## `TopoSort`: the final loop reverses the result -/

theorem swapAt_ends (a m b : List String) (x y : String) :
    swapAt (a ++ x :: (m ++ y :: b)) (a.length : Int) ((a.length : Int) + m.length + 1)
      = a ++ y :: (m ++ x :: b) := by
  have hi : ((a.length : Int)).toNat = a.length := by omega
  have hj : ((a.length : Int) + m.length + 1).toNat = a.length + (m.length + 1) := by omega
  have h1 : (a ++ x :: (m ++ y :: b)).getD a.length "" = x := by
    rw [List.getD_eq_getElem?_getD, List.getElem?_append_right (le_refl _)]
    simp
  have h2 : (a ++ x :: (m ++ y :: b)).getD (a.length + (m.length + 1)) "" = y := by
    rw [List.getD_eq_getElem?_getD, List.getElem?_append_right (by omega)]
    have e : a.length + (m.length + 1) - a.length = m.length + 1 := by omega
    rw [e, List.getElem?_cons_succ, List.getElem?_append_right (le_refl _)]
    simp
  unfold swapAt
  rw [hi, hj, h1, h2]
  have s1 : (a ++ x :: (m ++ y :: b)).set a.length y = a ++ y :: (m ++ y :: b) := by
    rw [List.set_append]
    simp
  rw [s1, List.set_append]
  have e : a.length + (m.length + 1) - a.length = m.length + 1 := by omega
  have hn : ¬ a.length + (m.length + 1) < a.length := by omega
  rw [if_neg hn, e, List.set_cons_succ, List.set_append]
  simp

/-- The loop reverses the part of the slice between the two indices. -/
theorem reverseLoop_spec : ∀ (fuel : Nat) (a m b : List String), m.length ≤ fuel →
    reverseLoop fuel (a.length : Int) ((a.length : Int) + m.length - 1) (a ++ m ++ b)
      = some (a ++ m.reverse ++ b) := by
  intro fuel
  induction fuel with
  | zero =>
    intro a m b hm
    have : m = [] := List.length_eq_zero.mp (by omega)
    subst this
    simp [reverseLoop]
  | succ fuel ih =>
    intro a m b hm
    cases m with
    | nil => simp [reverseLoop]
    | cons x m1 =>
      rcases List.eq_nil_or_concat m1 with h | ⟨m2, y, h⟩
      · subst h
        simp [reverseLoop]
      · rw [List.concat_eq_append] at h
        subst h
        have hlt : (a.length : Int) < (a.length : Int) + ((x :: (m2 ++ [y])).length : Nat) - 1 := by
          simp; omega
        rw [reverseLoop, if_pos hlt]
        have hsw : swapAt (a ++ x :: (m2 ++ [y]) ++ b) (a.length : Int)
            ((a.length : Int) + ((x :: (m2 ++ [y])).length : Nat) - 1)
            = (a ++ [y]) ++ m2 ++ (x :: b) := by
          have := swapAt_ends a m2 b x y
          have e1 : a ++ x :: (m2 ++ [y]) ++ b = a ++ x :: (m2 ++ y :: b) := by simp
          have e2 : (a.length : Int) + ((x :: (m2 ++ [y])).length : Nat) - 1
              = (a.length : Int) + m2.length + 1 := by simp; omega
          rw [e1, e2, this]; simp
        rw [hsw]
        have e3 : (a.length : Int) + 1 = ((a ++ [y]).length : Int) := by simp
        have e4 : (a.length : Int) + ((x :: (m2 ++ [y])).length : Nat) - 1 - 1
            = ((a ++ [y]).length : Int) + (m2.length : Nat) - 1 := by simp; omega
        rw [e3, e4, ih (a ++ [y]) m2 (x :: b) (by simp at hm; omega)]
        simp

theorem reverseInPlace_eq (result : List String) : reverseInPlace result = some result.reverse := by
  have := reverseLoop_spec result.length [] result [] (le_refl _)
  simpa [reverseInPlace] using this

/-- What `TopoSort` returns, for every graph and all iteration orders: a duplicate-free list
that holds exactly the names of the in-degree table all of whose predecessors it holds, with
every edge target before the source of the edge. -/
theorem TopoSort_spec (g : Graph) {order1 order2 : List String} (h : g.Orders order1 order2) :
    ∃ out, g.TopoSort order1 order2 = some out ∧ IsKahnOutput g out := by
  have hdom : ∀ a b, g.Edge a b → b ∈ (g.inDegree order1).keys := fun a b hab =>
    AList.mem_keys.mp ((mem_inDegree g h.1 b).mpr (Or.inr ⟨a, hab⟩))
  obtain ⟨res, deg1, hloop, inv⟩ := kahnLoop_spec hdom
    (g.inDegree order1).keys.length _ _ [] (KInv.init g h) (by simp)
  refine ⟨res.reverse, by simp [Graph.TopoSort, hloop, reverseInPlace_eq], ⟨?_, ?_, ?_⟩⟩
  · have := inv.nodup
    rw [List.append_nil] at this
    exact List.nodup_reverse.mpr this
  · intro y
    have h1 := inv.mem_iff y
    rw [List.append_nil, pending_eq_zero_iff, ← AList.mem_keys, mem_inDegree g h.1] at h1
    simp only [List.mem_reverse]
    exact h1
  · intro x y hedge hy
    have h1 := inv.before x y hedge
    rw [List.append_nil] at h1
    exact (h1 (List.mem_reverse.mp hy)).reverse

/-! ## `TopoSort`: consequences for cyclic and acyclic graphs -/

theorem IsKahnOutput.before_of_path {g : Graph} {out : List String} (h : IsKahnOutput g out)
    {x y : String} (hp : g.Path x y) : y ∈ out → Before out y x := by
  induction hp with
  | single hedge => exact h.before _ _ hedge
  | tail _ hedge ih =>
    intro hy
    have h1 := h.before _ _ hedge hy
    exact h1.trans h.nodup (ih h1.mem_right)

/-- A node on a cycle is never returned. -/
theorem IsKahnOutput.not_mem_of_onCycle {g : Graph} {out : List String}
    (h : IsKahnOutput g out) {n : String} (hc : g.OnCycle n) : n ∉ out :=
  fun hn => Before.irrefl h.nodup (h.before_of_path hc hn)

theorem finite_nodes (g : Graph) : {y | y ∈ g.Edges ∨ ∃ x, g.Edge x y}.Finite := by
  apply (List.finite_toSet (g.Edges.keys ++ g.Edges.keys.flatMap g.adj)).subset
  rintro y (hy | ⟨x, hx⟩)
  · exact List.mem_append_left _ (AList.mem_keys.mp hy)
  · exact List.mem_append_right _
      (List.mem_flatMap.mpr ⟨x, AList.mem_keys.mp (mem_of_edge hx), hx⟩)

/-- On an acyclic graph every key and every edge target is returned. -/
theorem IsKahnOutput.complete {g : Graph} {out : List String} (h : IsKahnOutput g out)
    (hac : g.Acyclic) {y : String} (hy : y ∈ g.Edges ∨ ∃ x, g.Edge x y) : y ∈ out := by
  by_contra hout
  haveI : IsStrictOrder String g.Path :=
    { irrefl := hac, trans := fun _ _ _ => Relation.TransGen.trans }
  have hfin : {z | (z ∈ g.Edges ∨ ∃ x, g.Edge x z) ∧ z ∉ out}.Finite :=
    (finite_nodes g).subset (fun z hz => hz.1)
  have hwfOn : Set.WellFoundedOn {z | (z ∈ g.Edges ∨ ∃ x, g.Edge x z) ∧ z ∉ out} g.Path :=
    hfin.wellFoundedOn
  have hwf := Set.wellFoundedOn_iff.mp hwfOn
  obtain ⟨m, hm, hmin⟩ := hwf.has_min {z | (z ∈ g.Edges ∨ ∃ x, g.Edge x z) ∧ z ∉ out}
    ⟨y, hy, hout⟩
  have hpred : ¬ ∀ x, g.Edge x m → x ∈ out := fun hall =>
    hm.2 ((h.mem_iff m).mpr ⟨hm.1, hall⟩)
  push_neg at hpred
  obtain ⟨x, hedge, hx⟩ := hpred
  have hxS : x ∈ {z | (z ∈ g.Edges ∨ ∃ x, g.Edge x z) ∧ z ∉ out} :=
    ⟨Or.inl (mem_of_edge hedge), hx⟩
  exact hmin x hxS ⟨Relation.TransGen.single hedge, hxS, hm⟩

theorem IsKahnOutput.mem_nodes {g : Graph} {out : List String} (h : IsKahnOutput g out)
    {y : String} (hy : y ∈ out) : y ∈ g.Edges ∨ ∃ x, g.Edge x y :=
  ((h.mem_iff y).mp hy).1

/-! ## Graphs built through the API -/

theorem Closed_NewGraph : NewGraph.Closed := by
  intro x y h
  simp [Graph.Edge, Graph.adj, NewGraph] at h

theorem Closed_apply {g : Graph} (h : g.Closed) (op : Op) : (g.apply op).Closed := by
  cases op with
  | addNode n =>
    intro x y hxy
    have hxy1 : g.Edge x y := by
      simpa [Graph.Edge, Graph.apply, adj_AddNode] using hxy
    exact (mem_AddNode g n y).mpr (Or.inr (h x y hxy1))
  | addEdge a b =>
    intro x y hxy
    apply (mem_AddEdge g a b y).mpr
    by_cases hxa : x = a
    · subst hxa
      have hxy1 : y ∈ g.adj x ++ [b] := by
        simpa [Graph.Edge, Graph.apply, adj_AddEdge_self] using hxy
      rcases List.mem_append.mp hxy1 with h1 | h1
      · exact Or.inr (Or.inr (h x y h1))
      · exact Or.inr (Or.inl (List.mem_singleton.mp h1))
    · have hxy1 : g.Edge x y := by
        simpa [Graph.Edge, Graph.apply, adj_AddEdge_ne g a b hxa] using hxy
      exact Or.inr (Or.inr (h x y hxy1))

theorem Closed_foldl (ops : List Op) : ∀ g : Graph, g.Closed →
    (ops.foldl Graph.apply g).Closed := by
  induction ops with
  | nil => intro g h; exact h
  | cons op ops ih => intro g h; exact ih _ (Closed_apply h op)

/-- In a graph built from `NewGraph()` by `AddNode`/`AddEdge` every edge target is a key. -/
theorem Closed_build (ops : List Op) : (build ops).Closed :=
  Closed_foldl ops NewGraph Closed_NewGraph

theorem mem_outOf_of_mem {ops : List Op} {x y : String} (h : Op.addEdge x y ∈ ops) :
    y ∈ outOf ops x := by
  induction ops with
  | nil => cases h
  | cons op ops ih =>
    rcases List.mem_cons.mp h with h1 | h1
    · subst h1
      simp [outOf]
    · cases op with
      | addNode n => simpa [outOf] using ih h1
      | addEdge a b =>
        by_cases hax : a = x
        · simp [outOf, hax, ih h1]
        · simp [outOf, hax, ih h1]

/-- A call `AddEdge(x, y)` records the edge `x -> y`. -/
theorem edge_of_addEdge_mem {ops : List Op} {x y : String} (h : Op.addEdge x y ∈ ops) :
    (build ops).Edge x y := by
  unfold Graph.Edge
  rw [adj_build]
  exact mem_outOf_of_mem h

/-- On a graph whose edge targets are keys, a complete output lists the keys exactly once. -/
theorem IsKahnOutput.keys_of_acyclic {g : Graph} {out : List String} (h : IsKahnOutput g out)
    (hcl : g.Closed) (hac : g.Acyclic) :
    out.Nodup ∧ (∀ n, n ∈ out ↔ n ∈ g.Edges) ∧ out.length = g.Edges.keys.length := by
  have hmem : ∀ n, n ∈ out ↔ n ∈ g.Edges := by
    intro n
    constructor
    · intro hn
      rcases h.mem_nodes hn with h1 | ⟨x, hx⟩
      · exact h1
      · exact hcl x n hx
    · intro hn
      exact h.complete hac (Or.inl hn)
  refine ⟨h.nodup, hmem, ?_⟩
  apply List.Perm.length_eq
  apply (List.perm_ext_iff_of_nodup h.nodup (AList.keys_nodup _)).mpr
  intro n
  rw [hmem, AList.mem_keys]

theorem acyclic_of_DFS_nil {g : Graph} {roots : List String}
    (hroots : ∀ n, n ∈ g.Edges → n ∈ roots) (h : g.DFS roots = some none) : g.Acyclic :=
  fun n hcyc => DFS_nil_no_cycle h n (hroots n (mem_of_onCycle hcyc)) n
    Relation.ReflTransGen.refl hcyc

theorem cycle3_onCycle {n : String} (hn : n ∈ cycle3.Edges) : cycle3.OnCycle n := by
  have hAB : cycle3.Edge "A" "B" := by unfold Graph.Edge; decide
  have hBC : cycle3.Edge "B" "C" := by unfold Graph.Edge; decide
  have hCA : cycle3.Edge "C" "A" := by unfold Graph.Edge; decide
  have hkeys : n ∈ ["C", "B", "A"] := AList.mem_keys.mp hn
  simp only [List.mem_cons, List.mem_singleton, List.not_mem_nil, or_false] at hkeys
  rcases hkeys with rfl | rfl | rfl
  · exact ((Relation.TransGen.single hCA).tail hAB).tail hBC
  · exact ((Relation.TransGen.single hBC).tail hCA).tail hAB
  · exact ((Relation.TransGen.single hAB).tail hBC).tail hCA

/-! ## Claims about `TopoSort` -/

/-- C1 (the code does the opposite): on the graph built by the single call
`AddEdge("libc", "bash")`, whose dependency is `libc` and whose dependent is `bash`, `TopoSort`
returns `["bash", "libc"]` for each possible pair of iteration orders, so the dependency stands
at index 1 and the dependent at index 0. -/
theorem TopoSort_libcBash_dependent_first :
    libcBash.Edges.keys.Perm ["libc", "bash"] ∧
    libcBash.TopoSort ["libc", "bash"] ["libc", "bash"] = some ["bash", "libc"] ∧
    libcBash.TopoSort ["libc", "bash"] ["bash", "libc"] = some ["bash", "libc"] ∧
    libcBash.TopoSort ["bash", "libc"] ["libc", "bash"] = some ["bash", "libc"] ∧
    libcBash.TopoSort ["bash", "libc"] ["bash", "libc"] = some ["bash", "libc"] ∧
    ¬ Before ["bash", "libc"] "libc" "bash" := by
  refine ⟨by decide, by decide, by decide, by decide, by decide, ?_⟩
  intro h
  have hb : Before ["bash", "libc"] "bash" "libc" := ⟨0, 1, by decide, rfl, rfl⟩
  exact Before.irrefl (by decide) (h.trans (by decide) hb)

/-- C2: on an acyclic graph built from `NewGraph()` by `AddNode`/`AddEdge` calls, for all
iteration orders, `TopoSort` returns a list without duplicates whose elements are exactly the
keys of `Edges` and whose length is the number of keys. -/
theorem TopoSort_complete_of_acyclic (ops : List Op) (order1 order2 : List String)
    (hac : (build ops).Acyclic) (ho : (build ops).Orders order1 order2) :
    ∃ out, (build ops).TopoSort order1 order2 = some out ∧ out.Nodup ∧
      (∀ n, n ∈ out ↔ n ∈ (build ops).Edges) ∧
      out.length = (build ops).Edges.keys.length := by
  obtain ⟨out, hout, hk⟩ := TopoSort_spec (build ops) ho
  exact ⟨out, hout, hk.keys_of_acyclic (Closed_build ops) hac⟩

/-- Witness for C2 on the fixture, which has six keys. -/
theorem TopoSort_complete_of_acyclic_witness :
    fixture.Acyclic ∧
    fixture.Orders ["A", "B", "C", "D", "F", "G"] ["G", "F", "D", "C", "B", "A"] ∧
    ∃ out, fixture.TopoSort ["A", "B", "C", "D", "F", "G"] ["G", "F", "D", "C", "B", "A"]
        = some out ∧ out.Nodup ∧
      (∀ n, n ∈ out ↔ n ∈ fixture.Edges) ∧ out.length = fixture.Edges.keys.length :=
  ⟨fixture_acyclic, ⟨by unfold IterOrder; decide, by unfold IterOrder; decide⟩,
   TopoSort_complete_of_acyclic
     [.addEdge "A" "B", .addEdge "B" "C", .addEdge "B" "D", .addEdge "D" "F", .addEdge "D" "G"]
     ["A", "B", "C", "D", "F", "G"] ["G", "F", "D", "C", "B", "A"] fixture_acyclic
     ⟨by unfold IterOrder; decide, by unfold IterOrder; decide⟩⟩

/-- C5: for every graph and all iteration orders `TopoSort` returns a list, and no node that
lies on a cycle (a self-loop included) occurs in it; on the 3-cycle `A -> B -> C -> A` the list
is empty. -/
theorem TopoSort_omits_cycle_nodes :
    (∀ (g : Graph) (order1 order2 : List String), g.Orders order1 order2 →
      ∃ out, g.TopoSort order1 order2 = some out ∧ ∀ n, g.OnCycle n → n ∉ out) ∧
    (∀ order1 order2 : List String, cycle3.Orders order1 order2 →
      cycle3.TopoSort order1 order2 = some []) := by
  constructor
  · intro g order1 order2 ho
    obtain ⟨out, hout, hk⟩ := TopoSort_spec g ho
    exact ⟨out, hout, fun n hn => hk.not_mem_of_onCycle hn⟩
  · intro order1 order2 ho
    obtain ⟨out, hout, hk⟩ := TopoSort_spec cycle3 ho
    have hnil : out = [] := by
      apply List.eq_nil_iff_forall_not_mem.mpr
      intro n hn
      have hkey : n ∈ cycle3.Edges := by
        rcases hk.mem_nodes hn with h1 | ⟨x, hx⟩
        · exact h1
        · exact Closed_build _ x n hx
      exact hk.not_mem_of_onCycle (cycle3_onCycle hkey) hn
    rw [hout, hnil]

/-- Witness for C5: on the self-loop `A -> A` nothing is returned, and on the 3-cycle the
result is empty. -/
theorem TopoSort_omits_cycle_nodes_witness :
    (selfLoop.Orders ["A"] ["A"] ∧
      ∃ out, selfLoop.TopoSort ["A"] ["A"] = some out ∧ ∀ n, selfLoop.OnCycle n → n ∉ out) ∧
    (cycle3.Orders ["A", "B", "C"] ["B", "C", "A"] ∧
      cycle3.TopoSort ["A", "B", "C"] ["B", "C", "A"] = some []) :=
  ⟨⟨⟨by unfold IterOrder; decide, by unfold IterOrder; decide⟩,
    TopoSort_omits_cycle_nodes.1 selfLoop ["A"] ["A"]
      ⟨by unfold IterOrder; decide, by unfold IterOrder; decide⟩⟩,
   ⟨⟨by unfold IterOrder; decide, by unfold IterOrder; decide⟩,
    TopoSort_omits_cycle_nodes.2 ["A", "B", "C"] ["B", "C", "A"]
      ⟨by unfold IterOrder; decide, by unfold IterOrder; decide⟩⟩⟩

/-- C6: on a graph built from `NewGraph()` by `AddNode`/`AddEdge` calls, if the root list
contains every key and `DFS(roots)` returns `nil`, then for all iteration orders `TopoSort`
returns a list that contains every key of the graph exactly once. -/
theorem TopoSort_complete_after_DFS (ops : List Op) (roots order1 order2 : List String)
    (hroots : ∀ n, n ∈ (build ops).Edges → n ∈ roots)
    (hdfs : (build ops).DFS roots = some none)
    (ho : (build ops).Orders order1 order2) :
    ∃ out, (build ops).TopoSort order1 order2 = some out ∧ out.Nodup ∧
      (∀ n, n ∈ out ↔ n ∈ (build ops).Edges) ∧
      out.length = (build ops).Edges.keys.length := by
  obtain ⟨out, hout, hk⟩ := TopoSort_spec (build ops) ho
  exact ⟨out, hout, hk.keys_of_acyclic (Closed_build ops) (acyclic_of_DFS_nil hroots hdfs)⟩

/-- Witness for C6 on the fixture with all six nodes as roots. -/
theorem TopoSort_complete_after_DFS_witness :
    (∀ n, n ∈ fixture.Edges → n ∈ ["G", "F", "D", "C", "B", "A"]) ∧
    fixture.DFS ["G", "F", "D", "C", "B", "A"] = some none ∧
    fixture.Orders ["D", "G", "F", "B", "C", "A"] ["A", "B", "C", "D", "F", "G"] ∧
    ∃ out, fixture.TopoSort ["D", "G", "F", "B", "C", "A"] ["A", "B", "C", "D", "F", "G"]
        = some out ∧ out.Nodup ∧
      (∀ n, n ∈ out ↔ n ∈ fixture.Edges) ∧ out.length = fixture.Edges.keys.length :=
  ⟨fun n hn => (List.Perm.mem_iff (by decide)).mp (AList.mem_keys.mp hn), by decide,
   ⟨by unfold IterOrder; decide, by unfold IterOrder; decide⟩,
   TopoSort_complete_after_DFS
     [.addEdge "A" "B", .addEdge "B" "C", .addEdge "B" "D", .addEdge "D" "F", .addEdge "D" "G"]
     ["G", "F", "D", "C", "B", "A"] ["D", "G", "F", "B", "C", "A"]
     ["A", "B", "C", "D", "F", "G"]
     (fun n hn => (List.Perm.mem_iff (by decide)).mp (AList.mem_keys.mp hn)) (by decide)
     ⟨by unfold IterOrder; decide, by unfold IterOrder; decide⟩⟩

/-- C7: on an acyclic graph built by `AddNode`/`AddEdge`, for all iteration orders and every
call `AddEdge(x, y)`, `TopoSort` places the target `y` at a strictly smaller index than the
source `x`.  On the fixture `DFS(["A"])` returns `nil` and the result has `C` before `B`, `F`
before `D`, `G` before `D`, `D` before `B` and `B` before `A`. -/
theorem TopoSort_target_before_source :
    (∀ (ops : List Op) (order1 order2 : List String), (build ops).Acyclic →
      (build ops).Orders order1 order2 →
      ∃ out, (build ops).TopoSort order1 order2 = some out ∧
        ∀ x y, Op.addEdge x y ∈ ops → Before out y x) ∧
    fixture.DFS ["A"] = some none ∧
    (∀ order1 order2 : List String, fixture.Orders order1 order2 →
      ∃ out, fixture.TopoSort order1 order2 = some out ∧
        Before out "C" "B" ∧ Before out "F" "D" ∧ Before out "G" "D" ∧
        Before out "D" "B" ∧ Before out "B" "A") := by
  have general : ∀ (ops : List Op) (order1 order2 : List String), (build ops).Acyclic →
      (build ops).Orders order1 order2 →
      ∃ out, (build ops).TopoSort order1 order2 = some out ∧
        ∀ x y, Op.addEdge x y ∈ ops → Before out y x := by
    intro ops order1 order2 hac ho
    obtain ⟨out, hout, hk⟩ := TopoSort_spec (build ops) ho
    refine ⟨out, hout, ?_⟩
    intro x y hxy
    have hedge := edge_of_addEdge_mem hxy
    exact hk.before x y hedge (hk.complete hac (Or.inr ⟨x, hedge⟩))
  refine ⟨general, by decide, ?_⟩
  intro order1 order2 ho
  obtain ⟨out, hout, hb⟩ := general
    [.addEdge "A" "B", .addEdge "B" "C", .addEdge "B" "D", .addEdge "D" "F", .addEdge "D" "G"]
    order1 order2 fixture_acyclic ho
  exact ⟨out, hout, hb "B" "C" (by simp), hb "D" "F" (by simp), hb "D" "G" (by simp),
    hb "B" "D" (by simp), hb "A" "B" (by simp)⟩

/-- Witness for C7 on the fixture with concrete iteration orders. -/
theorem TopoSort_target_before_source_witness :
    fixture.Acyclic ∧
    fixture.Orders ["A", "B", "C", "D", "F", "G"] ["A", "B", "C", "D", "F", "G"] ∧
    (∃ out, fixture.TopoSort ["A", "B", "C", "D", "F", "G"] ["A", "B", "C", "D", "F", "G"]
        = some out ∧
      ∀ x y, Op.addEdge x y ∈ [Op.addEdge "A" "B", .addEdge "B" "C", .addEdge "B" "D",
        .addEdge "D" "F", .addEdge "D" "G"] → Before out y x) ∧
    ∃ out, fixture.TopoSort ["A", "B", "C", "D", "F", "G"] ["A", "B", "C", "D", "F", "G"]
        = some out ∧
      Before out "C" "B" ∧ Before out "F" "D" ∧ Before out "G" "D" ∧
      Before out "D" "B" ∧ Before out "B" "A" :=
  ⟨fixture_acyclic, ⟨by unfold IterOrder; decide, by unfold IterOrder; decide⟩,
   TopoSort_target_before_source.1
     [.addEdge "A" "B", .addEdge "B" "C", .addEdge "B" "D", .addEdge "D" "F", .addEdge "D" "G"]
     ["A", "B", "C", "D", "F", "G"] ["A", "B", "C", "D", "F", "G"] fixture_acyclic
     ⟨by unfold IterOrder; decide, by unfold IterOrder; decide⟩,
   TopoSort_target_before_source.2.2 ["A", "B", "C", "D", "F", "G"]
     ["A", "B", "C", "D", "F", "G"] ⟨by unfold IterOrder; decide, by unfold IterOrder; decide⟩⟩

/-! ## The graph invariant -/

theorem mem_apply_of_mem {g : Graph} {k : String} (h : k ∈ g.Edges) (op : Op) :
    k ∈ (g.apply op).Edges := by
  cases op with
  | addNode n => exact (mem_AddNode g n k).mpr (Or.inr h)
  | addEdge a b => exact (mem_AddEdge g a b k).mpr (Or.inr (Or.inr h))

theorem mem_foldl_of_mem (ops : List Op) : ∀ {g : Graph} {k : String}, k ∈ g.Edges →
    k ∈ (ops.foldl Graph.apply g).Edges := by
  induction ops with
  | nil => intro g k h; exact h
  | cons op ops ih => intro g k h; exact ih (mem_apply_of_mem h op)

theorem names_mem_apply (g : Graph) (op : Op) : ∀ n ∈ op.names, n ∈ (g.apply op).Edges := by
  intro n hn
  cases op with
  | addNode m =>
    have hnm : n = m := by simpa [Op.names] using hn
    exact (mem_AddNode g m n).mpr (Or.inl hnm)
  | addEdge a b =>
    have hnm : n = a ∨ n = b := by simpa [Op.names] using hn
    apply (mem_AddEdge g a b n).mpr
    tauto

theorem names_mem_foldl (ops : List Op) : ∀ (g : Graph), ∀ op ∈ ops, ∀ n ∈ op.names,
    n ∈ (ops.foldl Graph.apply g).Edges := by
  induction ops with
  | nil => intro g op hop; cases hop
  | cons op1 ops ih =>
    intro g op hop n hn
    rcases List.mem_cons.mp hop with h | h
    · subst h
      exact mem_foldl_of_mem ops (names_mem_apply g op n hn)
    · exact ih (g.apply op1) op h n hn

/-- C11: every edge target is a key in the empty graph; `AddNode` and `AddEdge` preserve this
and make the names they are passed keys; hence in every graph obtained from `NewGraph()` by
`AddNode`/`AddEdge` calls every name in an adjacency list and every name passed to a call is a
key of `Edges`. -/
theorem graph_invariant :
    NewGraph.Closed ∧
    (∀ (g : Graph) (n : String), g.Closed →
      (g.AddNode n).Closed ∧ n ∈ (g.AddNode n).Edges) ∧
    (∀ (g : Graph) (a b : String), g.Closed →
      (g.AddEdge a b).Closed ∧ a ∈ (g.AddEdge a b).Edges ∧ b ∈ (g.AddEdge a b).Edges) ∧
    (∀ ops : List Op, (∀ x y, y ∈ (build ops).adj x → y ∈ (build ops).Edges) ∧
      ∀ op ∈ ops, ∀ n ∈ op.names, n ∈ (build ops).Edges) := by
  refine ⟨Closed_NewGraph, ?_, ?_, ?_⟩
  · intro g n h
    exact ⟨Closed_apply h (.addNode n), names_mem_apply g (.addNode n) n (by simp [Op.names])⟩
  · intro g a b h
    exact ⟨Closed_apply h (.addEdge a b),
      names_mem_apply g (.addEdge a b) a (by simp [Op.names]),
      names_mem_apply g (.addEdge a b) b (by simp [Op.names])⟩
  · intro ops
    exact ⟨Closed_build ops, names_mem_foldl ops NewGraph⟩

/-- Witness for C11: the invariant of the empty graph is carried through `AddNode("a")` and
`AddEdge("a", "b")`. -/
theorem graph_invariant_witness :
    NewGraph.Closed ∧ (NewGraph.AddNode "a").Closed ∧
    ((NewGraph.AddNode "a").AddEdge "a" "b").Closed ∧
    "b" ∈ ((NewGraph.AddNode "a").AddEdge "a" "b").Edges :=
  ⟨graph_invariant.1, (graph_invariant.2.1 NewGraph "a" graph_invariant.1).1,
   (graph_invariant.2.2.1 (NewGraph.AddNode "a") "a" "b"
     (graph_invariant.2.1 NewGraph "a" graph_invariant.1).1).1,
   (graph_invariant.2.2.1 (NewGraph.AddNode "a") "a" "b"
     (graph_invariant.2.1 NewGraph "a" graph_invariant.1).1).2.2⟩

/-! ## Further claims about `DFS` -/

theorem reach_of_not_mem {g : Graph} {r n : String} (hr : r ∉ g.Edges) (h : g.Reach r n) :
    n = r := by
  rcases Relation.ReflTransGen.cases_head h with h1 | ⟨c, hedge, _⟩
  · exact h1.symm
  · exact absurd (mem_of_edge hedge) hr

/-- C12: for every graph, cyclic or not, and every root list none of whose names is a key of
`Edges`, `DFS(roots)` returns `nil`; in particular `DFS` of the empty root list returns
`nil`. -/
theorem DFS_nil_of_roots_not_keys (g : Graph) (roots : List String) :
    ((∀ r ∈ roots, r ∉ g.Edges) → g.DFS roots = some none) ∧ g.DFS [] = some none := by
  constructor
  · intro h
    apply (DFS_nil_iff g roots).mpr
    intro r hr n hreach hcyc
    have hn := reach_of_not_mem (h r hr) hreach
    subst hn
    exact h n hr (mem_of_onCycle hcyc)
  · rfl

/-- Witness for C12: on the 3-cycle the roots `Z, Q, Z` are not keys. -/
theorem DFS_nil_of_roots_not_keys_witness :
    (∀ r ∈ ["Z", "Q", "Z"], r ∉ cycle3.Edges) ∧ cycle3.DFS ["Z", "Q", "Z"] = some none :=
  ⟨by decide, (DFS_nil_of_roots_not_keys cycle3 ["Z", "Q", "Z"]).1 (by decide)⟩

theorem visitAll_append_error {call : String → DfsState → Option DfsResult}
    {e : CycleError} (ys : List String) : ∀ (xs : List String) (st : DfsState),
    visitAll call xs st = some (.error e) → visitAll call (xs ++ ys) st = some (.error e) := by
  intro xs
  induction xs with
  | nil => intro st h; rw [visitAll_nil] at h; cases h
  | cons x rest ih =>
    intro st h
    rcases visitAll_cons_error_inv h with h1 | ⟨st1, h1, h2⟩
    · rw [List.cons_append, visitAll_cons_error h1]
    · rw [List.cons_append, visitAll_cons_ok h1]
      exact ih st1 h2

/-- C16: if `DFS(r1)` returns an error, `DFS(r1 ++ r2)` returns the same error, whatever the
roots `r2` are. -/
theorem DFS_append_error (g : Graph) (r1 r2 : List String) (e : CycleError)
    (h : g.DFS r1 = some (some e)) : g.DFS (r1 ++ r2) = some (some e) := by
  unfold Graph.DFS at h ⊢
  cases hv : visitAll (dfs g g.dfsFuel) r1 DfsState.init with
  | none => rw [hv] at h; cases h
  | some res =>
    rw [hv] at h
    cases res with
    | ok st => cases h
    | error e1 =>
      simp only [Option.some.injEq] at h
      subst h
      rw [visitAll_append_error r2 r1 _ hv]

/-- Witness for C16: on the 3-cycle the error of the roots `Q, B` is kept when the roots
`A, C` follow. -/
theorem DFS_append_error_witness :
    cycle3.DFS ["Q", "B"] = some (some ⟨"B"⟩) ∧
    cycle3.DFS (["Q", "B"] ++ ["A", "C"]) = some (some ⟨"B"⟩) :=
  ⟨by decide, DFS_append_error cycle3 ["Q", "B"] ["A", "C"] ⟨"B"⟩ (by decide)⟩

/-- C20: a `nil` result of `DFS` for the roots of interest does not make `TopoSort` return those
roots: on the graph built by `AddEdge(X,Y), AddEdge(Y,X), AddEdge(X,A)`, `DFS(["A"])` returns
`nil`, while `TopoSort` returns the empty list for all iteration orders, so the root `A` is
omitted. -/
theorem DFS_nil_but_root_omitted :
    cycleIntoA.DFS ["A"] = some none ∧
    (∀ order1 order2 : List String, cycleIntoA.Orders order1 order2 →
      cycleIntoA.TopoSort order1 order2 = some [] ∧
      ∃ out, cycleIntoA.TopoSort order1 order2 = some out ∧ ∃ r ∈ ["A"], r ∉ out) := by
  refine ⟨by decide, ?_⟩
  intro order1 order2 ho
  obtain ⟨out, hout, hk⟩ := TopoSort_spec cycleIntoA ho
  have hXY : cycleIntoA.Edge "X" "Y" := by unfold Graph.Edge; decide
  have hYX : cycleIntoA.Edge "Y" "X" := by unfold Graph.Edge; decide
  have hXA : cycleIntoA.Edge "X" "A" := by unfold Graph.Edge; decide
  have hX : "X" ∉ out := hk.not_mem_of_onCycle ((Relation.TransGen.single hXY).tail hYX)
  have hY : "Y" ∉ out := hk.not_mem_of_onCycle ((Relation.TransGen.single hYX).tail hXY)
  have hA : "A" ∉ out := fun h => hX (((hk.mem_iff "A").mp h).2 "X" hXA)
  have hnil : out = [] := by
    apply List.eq_nil_iff_forall_not_mem.mpr
    intro n hn
    have hkey : n ∈ cycleIntoA.Edges := by
      rcases hk.mem_nodes hn with h1 | ⟨x, hx⟩
      · exact h1
      · exact Closed_build _ x n hx
    have hkeys : n ∈ ["X", "A", "Y"] := (List.Perm.mem_iff (by decide)).mp (AList.mem_keys.mp hkey)
    simp only [List.mem_cons, List.mem_singleton, List.not_mem_nil, or_false] at hkeys
    rcases hkeys with rfl | rfl | rfl
    · exact hX hn
    · exact hA hn
    · exact hY hn
  subst hnil
  exact ⟨hout, [], hout, "A", by simp, by simp⟩

/-- Witness for C20 with concrete iteration orders. -/
theorem DFS_nil_but_root_omitted_witness :
    cycleIntoA.Orders ["X", "Y", "A"] ["A", "Y", "X"] ∧
    cycleIntoA.TopoSort ["X", "Y", "A"] ["A", "Y", "X"] = some [] :=
  ⟨⟨by unfold IterOrder; decide, by unfold IterOrder; decide⟩,
   (DFS_nil_but_root_omitted.2 ["X", "Y", "A"] ["A", "Y", "X"]
     ⟨by unfold IterOrder; decide, by unfold IterOrder; decide⟩).1⟩

/-! ## Further claims about `TopoSort` -/

/-- C13: for every graph, cyclic or not, and all iteration orders, a key with an empty outgoing
list that is not the target of any edge occurs exactly once in the list returned by
`TopoSort`. -/
theorem TopoSort_isolated_once (g : Graph) (n : String) (order1 order2 : List String)
    (ho : g.Orders order1 order2) (hkey : n ∈ g.Edges) (_hout : g.adj n = [])
    (hin : ∀ x, ¬ g.Edge x n) :
    ∃ out, g.TopoSort order1 order2 = some out ∧ out.count n = 1 := by
  obtain ⟨out, hout, hk⟩ := TopoSort_spec g ho
  refine ⟨out, hout, List.count_eq_one_of_mem hk.nodup ?_⟩
  exact (hk.mem_iff n).mpr ⟨Or.inl hkey, fun x hx => absurd hx (hin x)⟩

/-- Witness for C13: the isolated node `I` added to the 3-cycle is returned once. -/
theorem TopoSort_isolated_once_witness :
    (cycle3.AddNode "I").Orders ["I", "A", "B", "C"] ["C", "B", "A", "I"] ∧
    "I" ∈ (cycle3.AddNode "I").Edges ∧ (cycle3.AddNode "I").adj "I" = [] ∧
    ∃ out, (cycle3.AddNode "I").TopoSort ["I", "A", "B", "C"] ["C", "B", "A", "I"] = some out ∧
      out.count "I" = 1 :=
  ⟨⟨by unfold IterOrder; decide, by unfold IterOrder; decide⟩, by decide, by decide,
   TopoSort_isolated_once (cycle3.AddNode "I") "I" ["I", "A", "B", "C"] ["C", "B", "A", "I"]
     ⟨by unfold IterOrder; decide, by unfold IterOrder; decide⟩ (by decide) (by decide)
     (fun x hx => by
        have hx1 : cycle3.Edge x "I" := by
          simpa [Graph.Edge, adj_AddNode] using hx
        have hmem : "I" ∈ cycle3.Edges := Closed_build _ x "I" hx1
        exact absurd hmem (by decide))⟩

theorem lookup_eq_some_degOf {m : GoMap Int} {k : String} (h : k ∈ m) :
    m.lookup k = some (degOf m k) := by
  obtain ⟨v, hv⟩ := Option.isSome_iff_exists.mp (AList.lookup_isSome.mpr h)
  simp [degOf, hv]

theorem doubleEdge_adj_source (a b : String) : (doubleEdge a b).adj a = [b, b] := by
  unfold doubleEdge
  rw [adj_build]
  simp [outOf]

theorem doubleEdge_adj_target {a b : String} (h : a ≠ b) : (doubleEdge a b).adj b = [] := by
  unfold doubleEdge
  rw [adj_build]
  simp [outOf, h]

theorem doubleEdge_keys {a b : String} (h : a ≠ b) :
    (doubleEdge a b).Edges.keys.Perm [a, b] := by
  apply (List.perm_ext_iff_of_nodup (AList.keys_nodup _) (by simp [h])).mpr
  intro k
  rw [← AList.mem_keys]
  have h1 : k ∈ (doubleEdge a b).Edges ↔ k = a ∨ k = b := by
    unfold doubleEdge build
    simp only [List.foldl_cons, List.foldl_nil, Graph.apply, mem_AddEdge]
    have : k ∉ NewGraph.Edges := AList.not_mem_empty k
    tauto
  rw [h1]
  simp

/-- C17: for every iteration order, the table computed by the first loop of `TopoSort` holds
for every node of the graph the number of its occurrences in all adjacency lists, with
multiplicity (zero for a node that is never a target); after `AddEdge(a,b), AddEdge(a,b)` with
`a != b` the entry of `b` is 2 and that of `a` is 0. -/
theorem inDegree_counts_occurrences :
    (∀ (g : Graph) (order : List String), IterOrder g.Edges order →
      ∀ y, (y ∈ g.Edges ∨ ∃ x, g.Edge x y) →
        (g.inDegree order).lookup y
          = some (((g.Edges.keys.map (fun x => (g.adj x).count y)).sum : Nat) : Int)) ∧
    (∀ (a b : String) (order : List String), a ≠ b →
      IterOrder (doubleEdge a b).Edges order →
      ((doubleEdge a b).inDegree order).lookup b = some 2 ∧
      ((doubleEdge a b).inDegree order).lookup a = some 0) := by
  have general : ∀ (g : Graph) (order : List String), IterOrder g.Edges order →
      ∀ y, (y ∈ g.Edges ∨ ∃ x, g.Edge x y) →
        (g.inDegree order).lookup y
          = some (((g.Edges.keys.map (fun x => (g.adj x).count y)).sum : Nat) : Int) := by
    intro g order ho y hy
    rw [lookup_eq_some_degOf ((mem_inDegree g ho y).mpr hy), degOf_inDegree g ho, pending_nil]
    rfl
  refine ⟨general, ?_⟩
  intro a b order hab ho
  have hsum : ∀ y, ((doubleEdge a b).Edges.keys.map
      (fun x => ((doubleEdge a b).adj x).count y)).sum = [b, b].count y := by
    intro y
    have := inEdges_perm (doubleEdge a b) (doubleEdge_keys hab) y
    unfold inEdges at this
    rw [this]
    simp [doubleEdge_adj_source, doubleEdge_adj_target hab]
  have hb := general (doubleEdge a b) order ho b
    (Or.inr ⟨a, by unfold Graph.Edge; rw [doubleEdge_adj_source]; simp⟩)
  have ha := general (doubleEdge a b) order ho a
    (Or.inl (AList.mem_keys.mpr ((doubleEdge_keys hab).mem_iff.mpr (by simp))))
  rw [hsum] at hb ha
  have hne : ¬ b = a := fun e => hab e.symm
  constructor
  · rw [hb]; simp
  · rw [ha, List.count_eq_zero.mpr (by simp [hab])]
    rfl

/-- Witness for C17 on the fixture and on the duplicated edge `a -> b`. -/
theorem inDegree_counts_occurrences_witness :
    (IterOrder fixture.Edges ["G", "F", "D", "C", "B", "A"] ∧
      (fixture.inDegree ["G", "F", "D", "C", "B", "A"]).lookup "D"
        = some (((fixture.Edges.keys.map (fun x => (fixture.adj x).count "D")).sum : Nat)
            : Int)) ∧
    ("a" ≠ "b" ∧ IterOrder (doubleEdge "a" "b").Edges ["b", "a"] ∧
      ((doubleEdge "a" "b").inDegree ["b", "a"]).lookup "b" = some 2 ∧
      ((doubleEdge "a" "b").inDegree ["b", "a"]).lookup "a" = some 0) :=
  ⟨⟨by unfold IterOrder; decide,
    inDegree_counts_occurrences.1 fixture ["G", "F", "D", "C", "B", "A"]
      (by unfold IterOrder; decide) "D" (Or.inl (by decide))⟩,
   ⟨by decide, by unfold IterOrder; decide,
    inDegree_counts_occurrences.2 "a" "b" ["b", "a"] (by decide)
      (by unfold IterOrder; decide)⟩⟩

theorem LoopHead.inv {g : Graph} {order1 order2 : List String} (ho : g.Orders order1 order2)
    {queue : List String} {deg : GoMap Int} {result : List String}
    (h : LoopHead g order1 order2 queue deg result) :
    KInv g (g.inDegree order1).keys queue deg result := by
  induction h with
  | start => exact KInv.init g ho
  | next _ ih =>
    exact ih.step (fun a b hab =>
      AList.mem_keys.mp ((mem_inDegree g ho.1 b).mpr (Or.inr ⟨a, hab⟩)))

theorem count_append_le (pre suf : List String) (y : String) :
    pre.count y ≤ (pre ++ suf).count y := by
  rw [List.count_append]
  omega

/-- C18: for every graph and all iteration orders the list returned by `TopoSort` contains no
name twice and only keys and edge targets of the graph.  In every state in which the queue loop
tests its condition no name occurs twice in `result` followed by `queue` and no counter is
negative, and no counter is negative after any number of steps of the loop over the dependents
of the dequeued node. -/
theorem TopoSort_nodup_and_nodes :
    (∀ (g : Graph) (order1 order2 : List String), g.Orders order1 order2 →
      ∃ out, g.TopoSort order1 order2 = some out ∧ out.Nodup ∧
        ∀ n ∈ out, n ∈ g.Edges ∨ ∃ x, g.Edge x n) ∧
    (∀ (g : Graph) (order1 order2 queue : List String) (deg : GoMap Int)
      (result : List String), g.Orders order1 order2 →
      LoopHead g order1 order2 queue deg result →
      (result ++ queue).Nodup ∧ (∀ y, 0 ≤ degOf deg y) ∧
      ∀ x q pre suf, queue = x :: q → g.adj x = pre ++ suf →
        ∀ y, 0 ≤ degOf (relax pre (q, deg)).2 y) := by
  constructor
  · intro g order1 order2 ho
    obtain ⟨out, hout, hk⟩ := TopoSort_spec g ho
    exact ⟨out, hout, hk.nodup, fun n hn => hk.mem_nodes hn⟩
  · intro g order1 order2 queue deg result ho hl
    have inv := hl.inv ho
    refine ⟨inv.nodup, ?_, ?_⟩
    · intro y
      rw [inv.deg_eq]
      exact Int.ofNat_nonneg _
    · intro x q pre suf hq hadj y
      subst hq
      have hxres : x ∉ result := by
        have h := inv.nodup
        rw [List.nodup_append] at h
        intro hx
        exact h.2.2 hx (List.mem_cons_self _ _)
      have hsnoc := pending_snoc g y x result hxres
      have hle := count_append_le pre suf y
      rw [← hadj] at hle
      rw [degOf_relax, inv.deg_eq]
      omega

/-- Witness for C18 on the 3-cycle with the isolated node `I`: the result is duplicate-free,
and in the state after the seeding loop no counter is negative. -/
theorem TopoSort_nodup_and_nodes_witness :
    (cycle3.AddNode "I").Orders ["I", "A", "B", "C"] ["C", "B", "A", "I"] ∧
    (∃ out, (cycle3.AddNode "I").TopoSort ["I", "A", "B", "C"] ["C", "B", "A", "I"] = some out ∧
      out.Nodup ∧ ∀ n ∈ out, n ∈ (cycle3.AddNode "I").Edges ∨ ∃ x, (cycle3.AddNode "I").Edge x n) ∧
    ∀ y, 0 ≤ degOf ((cycle3.AddNode "I").inDegree ["I", "A", "B", "C"]) y :=
  ⟨⟨by unfold IterOrder; decide, by unfold IterOrder; decide⟩,
   TopoSort_nodup_and_nodes.1 (cycle3.AddNode "I") ["I", "A", "B", "C"] ["C", "B", "A", "I"]
     ⟨by unfold IterOrder; decide, by unfold IterOrder; decide⟩,
   (TopoSort_nodup_and_nodes.2 (cycle3.AddNode "I") ["I", "A", "B", "C"] ["C", "B", "A", "I"]
     _ _ _ ⟨by unfold IterOrder; decide, by unfold IterOrder; decide⟩ LoopHead.start).2.1⟩

/-! ## `TopoSort`: which nodes are returned -/

theorem IsKahnOutput.mem_of_reach {g : Graph} {out : List String} (h : IsKahnOutput g out)
    {c n : String} (hr : g.Reach c n) (hn : n ∈ out) : c ∈ out := by
  rcases Relation.reflTransGen_iff_eq_or_transGen.mp hr with h1 | h1
  · exact h1 ▸ hn
  · exact (h.before_of_path h1 hn).mem_right

/-- A key or edge target that is not returned lies downstream of a cycle. -/
theorem IsKahnOutput.exists_cycle_of_not_mem {g : Graph} {out : List String}
    (h : IsKahnOutput g out) {n : String} (hnode : n ∈ g.Edges ∨ ∃ x, g.Edge x n)
    (hn : n ∉ out) : ∃ c, g.OnCycle c ∧ g.Reach c n := by
  by_contra hno
  haveI : IsStrictOrder String (fun a b => g.Path a b ∧ g.Reach b n) :=
    { irrefl := fun a hab => hno ⟨a, hab.1, hab.2⟩
      trans := fun _ _ _ hab hbc => ⟨Relation.TransGen.trans hab.1 hbc.1, hbc.2⟩ }
  have hfin : {z | (z ∈ g.Edges ∨ ∃ x, g.Edge x z) ∧ z ∉ out ∧ g.Reach z n}.Finite :=
    (finite_nodes g).subset (fun z hz => hz.1)
  have hwfOn : Set.WellFoundedOn
      {z | (z ∈ g.Edges ∨ ∃ x, g.Edge x z) ∧ z ∉ out ∧ g.Reach z n}
      (fun a b => g.Path a b ∧ g.Reach b n) := hfin.wellFoundedOn
  have hwf := Set.wellFoundedOn_iff.mp hwfOn
  obtain ⟨m, hm, hmin⟩ := hwf.has_min
    {z | (z ∈ g.Edges ∨ ∃ x, g.Edge x z) ∧ z ∉ out ∧ g.Reach z n}
    ⟨n, hnode, hn, Relation.ReflTransGen.refl⟩
  have hpred : ¬ ∀ x, g.Edge x m → x ∈ out := fun hall =>
    hm.2.1 ((h.mem_iff m).mpr ⟨hm.1, hall⟩)
  push_neg at hpred
  obtain ⟨x, hedge, hx⟩ := hpred
  have hxS : x ∈ {z | (z ∈ g.Edges ∨ ∃ x, g.Edge x z) ∧ z ∉ out ∧ g.Reach z n} :=
    ⟨Or.inl (mem_of_edge hedge), hx, Relation.ReflTransGen.head hedge hm.2.2⟩
  exact hmin x hxS ⟨⟨Relation.TransGen.single hedge, hm.2.2⟩, hxS, hm⟩

/-- The returned names are the keys and edge targets that no node on a cycle reaches. -/
theorem IsKahnOutput.mem_iff_no_cycle {g : Graph} {out : List String} (h : IsKahnOutput g out)
    (n : String) :
    n ∈ out ↔ ((n ∈ g.Edges ∨ ∃ x, g.Edge x n) ∧ ¬ ∃ c, g.OnCycle c ∧ g.Reach c n) := by
  constructor
  · intro hn
    refine ⟨h.mem_nodes hn, ?_⟩
    rintro ⟨c, hc, hr⟩
    exact h.not_mem_of_onCycle hc (h.mem_of_reach hr hn)
  · rintro ⟨hnode, hno⟩
    by_contra hn
    exact hno (h.exists_cycle_of_not_mem hnode hn)

theorem edge_eq_of_iff {g g1 : Graph} (h : ∀ x y, g.Edge x y ↔ g1.Edge x y) :
    g.Edge = g1.Edge :=
  funext fun x => funext fun y => propext (h x y)

/-- C19: for every graph and all iteration orders, a node of the graph (a key or an edge
target; in a graph built by `AddNode`/`AddEdge` these are the keys) occurs in the list returned
by `TopoSort` if and only if no node on a cycle has a path of zero or more edges to it.  After
`AddEdge(A,B), AddEdge(B,A), AddEdge(B,C)` the result is empty, so `C` is omitted.  Two graphs
with the same keys and the same edges up to multiplicity return the same set of names, for any
iteration orders. -/
theorem TopoSort_mem_iff_no_cycle_upstream :
    (∀ (g : Graph) (order1 order2 : List String), g.Orders order1 order2 →
      ∃ out, g.TopoSort order1 order2 = some out ∧
        ∀ n, (n ∈ g.Edges ∨ ∃ x, g.Edge x n) →
          (n ∈ out ↔ ¬ ∃ c, g.OnCycle c ∧ g.Reach c n)) ∧
    (∀ order1 order2 : List String, cycleIntoC.Orders order1 order2 →
      cycleIntoC.TopoSort order1 order2 = some []) ∧
    (∀ (g g1 : Graph) (order1 order2 order3 order4 : List String),
      g.Orders order1 order2 → g1.Orders order3 order4 →
      (∀ k, k ∈ g.Edges ↔ k ∈ g1.Edges) → (∀ x y, g.Edge x y ↔ g1.Edge x y) →
      ∃ out out1, g.TopoSort order1 order2 = some out ∧
        g1.TopoSort order3 order4 = some out1 ∧ ∀ n, n ∈ out ↔ n ∈ out1) := by
  refine ⟨?_, ?_, ?_⟩
  · intro g order1 order2 ho
    obtain ⟨out, hout, hk⟩ := TopoSort_spec g ho
    refine ⟨out, hout, fun n hnode => ?_⟩
    rw [hk.mem_iff_no_cycle]
    exact ⟨fun h => h.2, fun h => ⟨hnode, h⟩⟩
  · intro order1 order2 ho
    obtain ⟨out, hout, hk⟩ := TopoSort_spec cycleIntoC ho
    have hAB : cycleIntoC.Edge "A" "B" := by unfold Graph.Edge; decide
    have hBA : cycleIntoC.Edge "B" "A" := by unfold Graph.Edge; decide
    have hBC : cycleIntoC.Edge "B" "C" := by unfold Graph.Edge; decide
    have hA : cycleIntoC.OnCycle "A" := (Relation.TransGen.single hAB).tail hBA
    have hB : cycleIntoC.OnCycle "B" := (Relation.TransGen.single hBA).tail hAB
    have hnil : out = [] := by
      apply List.eq_nil_iff_forall_not_mem.mpr
      intro n hn
      have hno := ((hk.mem_iff_no_cycle n).mp hn).2
      have hkey : n ∈ cycleIntoC.Edges := by
        rcases hk.mem_nodes hn with h1 | ⟨x, hx⟩
        · exact h1
        · exact Closed_build _ x n hx
      have hkeys : n ∈ ["B", "C", "A"] :=
        (List.Perm.mem_iff (by decide)).mp (AList.mem_keys.mp hkey)
      simp only [List.mem_cons, List.mem_singleton, List.not_mem_nil, or_false] at hkeys
      rcases hkeys with rfl | rfl | rfl
      · exact hno ⟨"B", hB, Relation.ReflTransGen.refl⟩
      · exact hno ⟨"B", hB, Relation.ReflTransGen.single hBC⟩
      · exact hno ⟨"A", hA, Relation.ReflTransGen.refl⟩
    rw [hout, hnil]
  · intro g g1 order1 order2 order3 order4 ho ho1 hkeys hedges
    obtain ⟨out, hout, hk⟩ := TopoSort_spec g ho
    obtain ⟨out1, hout1, hk1⟩ := TopoSort_spec g1 ho1
    refine ⟨out, out1, hout, hout1, fun n => ?_⟩
    have he := edge_eq_of_iff hedges
    rw [hk.mem_iff_no_cycle, hk1.mem_iff_no_cycle]
    unfold Graph.OnCycle Graph.Path Graph.Reach
    rw [he, hkeys]

/-! ## `TopoSort` on a chain -/

theorem mem_foldl_apply_iff (ops : List Op) : ∀ (g : Graph) (k : String),
    k ∈ (ops.foldl Graph.apply g).Edges ↔ k ∈ g.Edges ∨ ∃ op ∈ ops, k ∈ op.names := by
  induction ops with
  | nil => intro g k; simp
  | cons op ops ih =>
    intro g k
    rw [List.foldl_cons, ih]
    have h1 : k ∈ (g.apply op).Edges ↔ k ∈ g.Edges ∨ k ∈ op.names := by
      cases op with
      | addNode n => simp [Graph.apply, mem_AddNode, Op.names]; tauto
      | addEdge a b => simp [Graph.apply, mem_AddEdge, Op.names]; tauto
    rw [h1]
    simp only [List.mem_cons, exists_eq_or_imp]
    tauto

theorem mem_build_iff (ops : List Op) (k : String) :
    k ∈ (build ops).Edges ↔ ∃ op ∈ ops, k ∈ op.names := by
  unfold build
  rw [mem_foldl_apply_iff]
  have : k ∉ NewGraph.Edges := AList.not_mem_empty k
  tauto

theorem mem_of_mem_outOf {ops : List Op} {x y : String} (h : y ∈ outOf ops x) :
    Op.addEdge x y ∈ ops := by
  induction ops with
  | nil => simp [outOf] at h
  | cons op ops ih =>
    cases op with
    | addNode n => exact List.mem_cons_of_mem _ (ih (by simpa [outOf] using h))
    | addEdge a b =>
      by_cases hax : a = x
      · subst hax
        rw [outOf_cons_edge_self] at h
        rcases List.mem_cons.mp h with h1 | h1
        · subst h1; exact List.mem_cons_self _ _
        · exact List.mem_cons_of_mem _ (ih h1)
      · rw [outOf_cons_edge_ne b ops hax] at h
        exact List.mem_cons_of_mem _ (ih h)

/-- The edges of a built graph are the recorded calls of `AddEdge`. -/
theorem edge_build_iff (ops : List Op) (x y : String) :
    (build ops).Edge x y ↔ Op.addEdge x y ∈ ops := by
  unfold Graph.Edge
  rw [adj_build]
  exact ⟨mem_of_mem_outOf, mem_outOf_of_mem⟩

theorem mem_chainOps_cons (a b : String) (rest : List String) (op : Op) :
    op ∈ chainOps (a :: b :: rest) ↔ op = .addEdge a b ∨ op ∈ chainOps (b :: rest) := by
  simp [chainOps]

theorem Before.cons {l : List String} {x y : String} (h : Before l x y) (a : String) :
    Before (a :: l) x y := by
  obtain ⟨i, j, hij, hi, hj⟩ := h
  exact ⟨i + 1, j + 1, by omega, by simpa using hi, by simpa using hj⟩

theorem before_of_mem_chainOps : ∀ (ns : List String) (x y : String),
    Op.addEdge x y ∈ chainOps ns → Before ns x y
  | [], _, _, h => by simp [chainOps] at h
  | [_], _, _, h => by simp [chainOps] at h
  | a :: b :: rest, x, y, h => by
    rcases (mem_chainOps_cons a b rest _).mp h with h1 | h1
    · cases h1
      exact ⟨0, 1, by omega, by simp, by simp⟩
    · exact (before_of_mem_chainOps (b :: rest) x y h1).cons a

theorem names_of_mem_chainOps : ∀ (ns : List String) (op : Op), op ∈ chainOps ns →
    ∀ n ∈ op.names, n ∈ ns
  | [], _, h => by simp [chainOps] at h
  | [_], _, h => by simp [chainOps] at h
  | a :: b :: rest, op, h => by
    intro n hn
    rcases (mem_chainOps_cons a b rest _).mp h with h1 | h1
    · subst h1
      have : n = a ∨ n = b := by simpa [Op.names] using hn
      rcases this with rfl | rfl <;> simp
    · exact List.mem_cons_of_mem _ (names_of_mem_chainOps (b :: rest) op h1 n hn)

theorem exists_mem_chainOps : ∀ (a b : String) (rest : List String), ∀ n ∈ a :: b :: rest,
    ∃ op ∈ chainOps (a :: b :: rest), n ∈ op.names
  | a, b, [], n, hn => by
    refine ⟨.addEdge a b, by simp [chainOps], ?_⟩
    simpa [Op.names] using hn
  | a, b, c :: rest, n, hn => by
    rcases List.mem_cons.mp hn with h1 | h1
    · exact ⟨.addEdge a b, (mem_chainOps_cons a b _ _).mpr (Or.inl rfl), by simp [Op.names, h1]⟩
    · obtain ⟨op, hop, hnop⟩ := exists_mem_chainOps b c rest n h1
      exact ⟨op, (mem_chainOps_cons a b _ _).mpr (Or.inr hop), hnop⟩

/-- The keys of the chain graph are the names of the chain. -/
theorem mem_chain_iff (a b : String) (rest : List String) (k : String) :
    k ∈ (build (chainOps (a :: b :: rest))).Edges ↔ k ∈ a :: b :: rest := by
  rw [mem_build_iff]
  constructor
  · rintro ⟨op, hop, hk⟩
    exact names_of_mem_chainOps _ op hop k hk
  · exact exists_mem_chainOps a b rest k

theorem chain_acyclic {ns : List String} (hnd : ns.Nodup) : (build (chainOps ns)).Acyclic := by
  have hpath : ∀ x y, (build (chainOps ns)).Path x y → Before ns x y := by
    intro x y h
    induction h with
    | single hedge => exact before_of_mem_chainOps ns _ _ ((edge_build_iff _ _ _).mp hedge)
    | tail _ hedge ih =>
      exact ih.trans hnd (before_of_mem_chainOps ns _ _ ((edge_build_iff _ _ _).mp hedge))
  exact fun n hc => Before.irrefl hnd (hpath n n hc)

theorem chain'_of_chainOps {R : String → String → Prop} : ∀ (ns : List String),
    (∀ x y, Op.addEdge x y ∈ chainOps ns → R x y) → List.Chain' R ns
  | [], _ => List.chain'_nil
  | [a], _ => List.chain'_singleton a
  | a :: b :: rest, h => by
    rw [List.chain'_cons]
    refine ⟨h a b ((mem_chainOps_cons a b rest _).mpr (Or.inl rfl)), ?_⟩
    exact chain'_of_chainOps (b :: rest)
      (fun x y hxy => h x y ((mem_chainOps_cons a b rest _).mpr (Or.inr hxy)))

theorem pairwise_before_self (l : List String) : l.Pairwise (Before l) := by
  rw [List.pairwise_iff_getElem]
  intro i j hi hj hij
  exact ⟨i, j, hij, List.getElem?_eq_getElem hi, List.getElem?_eq_getElem hj⟩

/-- A duplicate-free list with the names of `ns` in which consecutive names of `ns` stand in
order is `ns`. -/
theorem eq_of_chain_before {l ns : List String} (hnd : l.Nodup) (hperm : l.Perm ns)
    (hchain : List.Chain' (Before l) ns) : l = ns := by
  haveI : IsTrans String (Before l) := ⟨fun _ _ _ h1 h2 => h1.trans hnd h2⟩
  haveI : IsAntisymm String (Before l) :=
    ⟨fun _ _ h1 h2 => absurd (h1.trans hnd h2) (Before.irrefl hnd)⟩
  exact List.eq_of_perm_of_sorted hperm (pairwise_before_self l)
    (List.chain'_iff_pairwise.mp hchain)

theorem TopoSort_chain (a b : String) (rest order1 order2 : List String)
    (hnd : (a :: b :: rest).Nodup)
    (ho : (build (chainOps (a :: b :: rest))).Orders order1 order2) :
    (build (chainOps (a :: b :: rest))).TopoSort order1 order2
      = some (a :: b :: rest).reverse := by
  obtain ⟨out, hout, hk⟩ := TopoSort_spec _ ho
  obtain ⟨_, hmem, _⟩ := hk.keys_of_acyclic (Closed_build _) (chain_acyclic hnd)
  have hrev : out.reverse = a :: b :: rest := by
    apply eq_of_chain_before (List.nodup_reverse.mpr hk.nodup)
    · apply (List.perm_ext_iff_of_nodup (List.nodup_reverse.mpr hk.nodup) hnd).mpr
      intro n
      rw [List.mem_reverse, hmem, mem_chain_iff]
    · apply chain'_of_chainOps
      intro x y hxy
      have hedge := (edge_build_iff _ x y).mpr hxy
      have hy : y ∈ out := (hmem y).mpr
        ((mem_chain_iff a b rest y).mpr
          (names_of_mem_chainOps _ _ hxy y (by simp [Op.names])))
      exact (hk.before x y hedge hy).reverse
  rw [hout, ← hrev, List.reverse_reverse]

/-- Every node of the graph has its number of incoming edges as entry of the in-degree
table. -/
theorem lookup_inDegree (g : Graph) {order : List String} (ho : IterOrder g.Edges order)
    {y : String} (hy : y ∈ g.Edges ∨ ∃ x, g.Edge x y) :
    (g.inDegree order).lookup y = some (pending g [] y : Int) := by
  rw [lookup_eq_some_degOf ((mem_inDegree g ho y).mpr hy), degOf_inDegree g ho]

/-- C14: for pairwise distinct names `n1, n2, ..., nk` (`k >= 2`) the graph built by
`AddEdge(n1,n2), ..., AddEdge(n(k-1),nk)` is sorted to exactly `[nk, ..., n2, n1]`, for all
iteration orders.  For the documented example `a -> b, b -> c, c -> d` the in-degree table
holds `a=0, b=1, c=1, d=1` and the result is `[d, c, b, a]`. -/
theorem TopoSort_chain_reversed :
    (∀ (n1 n2 : String) (rest order1 order2 : List String), (n1 :: n2 :: rest).Nodup →
      (build (chainOps (n1 :: n2 :: rest))).Orders order1 order2 →
      (build (chainOps (n1 :: n2 :: rest))).TopoSort order1 order2
        = some (n1 :: n2 :: rest).reverse) ∧
    (∀ order : List String, IterOrder chain4.Edges order →
      (chain4.inDegree order).lookup "a" = some 0 ∧
      (chain4.inDegree order).lookup "b" = some 1 ∧
      (chain4.inDegree order).lookup "c" = some 1 ∧
      (chain4.inDegree order).lookup "d" = some 1) ∧
    (∀ order1 order2 : List String, chain4.Orders order1 order2 →
      chain4.TopoSort order1 order2 = some ["d", "c", "b", "a"]) := by
  refine ⟨TopoSort_chain, ?_, ?_⟩
  · intro order ho
    have hp : pending chain4 [] "a" = 0 ∧ pending chain4 [] "b" = 1 ∧
        pending chain4 [] "c" = 1 ∧ pending chain4 [] "d" = 1 := by decide
    refine ⟨?_, ?_, ?_, ?_⟩
    · rw [lookup_inDegree chain4 ho (Or.inl (by decide)), hp.1]; rfl
    · rw [lookup_inDegree chain4 ho (Or.inl (by decide)), hp.2.1]; rfl
    · rw [lookup_inDegree chain4 ho (Or.inl (by decide)), hp.2.2.1]; rfl
    · rw [lookup_inDegree chain4 ho (Or.inl (by decide)), hp.2.2.2]; rfl
  · intro order1 order2 ho
    exact TopoSort_chain "a" "b" ["c", "d"] order1 order2 (by decide) ho

/-- Witness for C14 on the chain `a -> b -> c -> d` with concrete iteration orders. -/
theorem TopoSort_chain_reversed_witness :
    ["a", "b", "c", "d"].Nodup ∧
    chain4.Orders ["c", "a", "d", "b"] ["b", "d", "a", "c"] ∧
    chain4.TopoSort ["c", "a", "d", "b"] ["b", "d", "a", "c"] = some ["d", "c", "b", "a"] ∧
    (chain4.inDegree ["c", "a", "d", "b"]).lookup "b" = some 1 :=
  ⟨by decide, ⟨by unfold IterOrder; decide, by unfold IterOrder; decide⟩,
   TopoSort_chain_reversed.1 "a" "b" ["c", "d"] ["c", "a", "d", "b"] ["b", "d", "a", "c"]
     (by decide) ⟨by unfold IterOrder; decide, by unfold IterOrder; decide⟩,
   (TopoSort_chain_reversed.2.1 ["c", "a", "d", "b"] (by unfold IterOrder; decide)).2.1⟩

/-! ## `DFS` expands every node at most once -/

theorem visitAllLog_fst {callL : String → DfsState → Option (DfsResult × List String)}
    {call : String → DfsState → Option DfsResult}
    (hc : ∀ x st, (callL x st).map Prod.fst = call x st) :
    ∀ (xs : List String) (st : DfsState),
      (visitAllLog callL xs st).map Prod.fst = visitAll call xs st := by
  intro xs
  induction xs with
  | nil => intro st; rfl
  | cons x rest ih =>
    intro st
    have h1 := hc x st
    cases hL : callL x st with
    | none =>
      rw [hL] at h1
      simp [visitAllLog, visitAll, hL, ← h1]
    | some p =>
      obtain ⟨r, log⟩ := p
      rw [hL] at h1
      cases r with
      | error e => simp [visitAllLog, visitAll, hL, ← h1]
      | ok st1 =>
        have h2 := ih st1
        cases hR : visitAllLog callL rest st1 with
        | none =>
          rw [hR] at h2
          simp [visitAllLog, visitAll, hL, hR, ← h1, ← h2]
        | some q =>
          rw [hR] at h2
          simp [visitAllLog, visitAll, hL, hR, ← h1, ← h2]

/-- Dropping the log of `dfsLog` gives `dfs`. -/
theorem dfsLog_fst (g : Graph) : ∀ (fuel : Nat) (node : String) (st : DfsState),
    (dfsLog g fuel node st).map Prod.fst = dfs g fuel node st := by
  intro fuel
  induction fuel with
  | zero => intro node st; rfl
  | succ fuel ih =>
    intro node st
    have h := visitAllLog_fst ih (g.adj node)
      ⟨Function.update st.visiting node true, st.visited⟩
    by_cases h1 : st.visiting node = true
    · simp [dfsLog, dfs, h1]
    · have h1f : st.visiting node = false := by simpa using h1
      by_cases h2 : st.visited node = true
      · simp [dfsLog, dfs, h1f, h2]
      · have h2f : st.visited node = false := by simpa using h2
        cases hR : visitAllLog (dfsLog g fuel) (g.adj node)
            ⟨Function.update st.visiting node true, st.visited⟩ with
        | none =>
          rw [hR] at h
          simp [dfsLog, dfs, h1f, h2f, hR, ← h]
        | some q =>
          obtain ⟨r, log⟩ := q
          rw [hR] at h
          cases r with
          | error e => simp [dfsLog, dfs, h1f, h2f, hR, ← h]
          | ok st1 => simp [dfsLog, dfs, h1f, h2f, hR, ← h]

/-- Dropping the log of `DFSLog` gives `DFS`. -/
theorem DFSLog_fst (g : Graph) (roots : List String) :
    (g.DFSLog roots).map Prod.fst = g.DFS roots := by
  have h := visitAllLog_fst (dfsLog_fst g g.dfsFuel) roots DfsState.init
  unfold Graph.DFSLog Graph.DFS
  cases hR : visitAllLog (dfsLog g g.dfsFuel) roots DfsState.init with
  | none =>
    rw [hR] at h
    simp [← h]
  | some q =>
    obtain ⟨r, log⟩ := q
    rw [hR] at h
    cases r with
    | error e => simp [← h]
    | ok st1 => simp [← h]

theorem dfs_of_dfsLog {g : Graph} {fuel : Nat} {node : String} {st : DfsState}
    {r : DfsResult} {log : List String} (h : dfsLog g fuel node st = some (r, log)) :
    dfs g fuel node st = some r := by
  rw [← dfsLog_fst, h]
  rfl

theorem visitAllLog_cons_cases {call : String → DfsState → Option (DfsResult × List String)}
    {x : String} {rest : List String} {st : DfsState} {r : DfsResult} {log : List String}
    (h : visitAllLog call (x :: rest) st = some (r, log)) :
    (∃ e, call x st = some (.error e, log) ∧ r = .error e) ∨
    (∃ st1 l1 l2, call x st = some (.ok st1, l1) ∧
      visitAllLog call rest st1 = some (r, l2) ∧ log = l1 ++ l2) := by
  cases hL : call x st with
  | none => simp [visitAllLog, hL] at h
  | some p =>
    obtain ⟨r1, l1⟩ := p
    cases r1 with
    | error e =>
      simp only [visitAllLog, hL, Option.some.injEq, Prod.mk.injEq] at h
      exact Or.inl ⟨e, by rw [h.2], h.1.symm⟩
    | ok st1 =>
      cases hR : visitAllLog call rest st1 with
      | none => simp [visitAllLog, hL, hR] at h
      | some q =>
        obtain ⟨r2, l2⟩ := q
        simp only [visitAllLog, hL, hR, Option.some.injEq, Prod.mk.injEq] at h
        exact Or.inr ⟨st1, l1, l2, rfl, by rw [hR, h.1], h.2.symm⟩

theorem dfsLog_succ_cases {g : Graph} {fuel : Nat} {node : String} {st : DfsState}
    {r : DfsResult} {log : List String} (h : dfsLog g (fuel + 1) node st = some (r, log)) :
    log = [] ∨
    (st.visiting node = false ∧ st.visited node = false ∧
      ∃ r1 log1, visitAllLog (dfsLog g fuel) (g.adj node)
          ⟨Function.update st.visiting node true, st.visited⟩ = some (r1, log1) ∧
        log = node :: log1 ∧
        ∀ st2, r = .ok st2 → ∃ st1, r1 = .ok st1 ∧
          st2 = ⟨Function.update st1.visiting node false,
                 Function.update st1.visited node true⟩) := by
  by_cases h1 : st.visiting node = true
  · simp only [dfsLog, h1, if_true, Option.some.injEq, Prod.mk.injEq] at h
    exact Or.inl h.2.symm
  · have h1f : st.visiting node = false := by simpa using h1
    by_cases h2 : st.visited node = true
    · simp only [dfsLog, h1f, h2, if_true, Bool.false_eq_true, if_false, Option.some.injEq,
        Prod.mk.injEq] at h
      exact Or.inl h.2.symm
    · have h2f : st.visited node = false := by simpa using h2
      refine Or.inr ⟨h1f, h2f, ?_⟩
      cases hR : visitAllLog (dfsLog g fuel) (g.adj node)
          ⟨Function.update st.visiting node true, st.visited⟩ with
      | none => simp [dfsLog, h1f, h2f, hR] at h
      | some q =>
        obtain ⟨r1, log1⟩ := q
        cases r1 with
        | error e =>
          simp only [dfsLog, h1f, h2f, Bool.false_eq_true, if_false, hR, Option.some.injEq,
            Prod.mk.injEq] at h
          refine ⟨.error e, log1, rfl, h.2.symm, ?_⟩
          intro st2 hst2
          rw [← h.1] at hst2
          cases hst2
        | ok st1 =>
          simp only [dfsLog, h1f, h2f, Bool.false_eq_true, if_false, hR, Option.some.injEq,
            Prod.mk.injEq] at h
          refine ⟨.ok st1, log1, rfl, h.2.symm, ?_⟩
          intro st2 hst2
          rw [← h.1] at hst2
          cases hst2
          exact ⟨st1, rfl, rfl⟩

theorem LogOK_nil (st : DfsState) (r : DfsResult) : LogOK st r [] :=
  ⟨List.nodup_nil, fun x hx => absurd hx (List.not_mem_nil x),
   fun _ _ x hx => absurd hx (List.not_mem_nil x)⟩

theorem visitAllLog_logOK {call : String → DfsState → Option (DfsResult × List String)}
    (hg : ∀ x s s1 l, call x s = some (.ok s1, l) → Grows s s1)
    (hc : ∀ x s r l, call x s = some (r, l) → LogOK s r l) :
    ∀ (xs : List String) (st : DfsState) (r : DfsResult) (log : List String),
      visitAllLog call xs st = some (r, log) →
      LogOK st r log ∧ ∀ st1, r = .ok st1 → Grows st st1 := by
  intro xs
  induction xs with
  | nil =>
    intro st r log h
    simp only [visitAllLog, Option.some.injEq, Prod.mk.injEq] at h
    rw [← h.2]
    refine ⟨LogOK_nil st r, ?_⟩
    intro st1 hst1
    rw [← h.1] at hst1
    cases hst1
    exact Grows.refl _
  | cons x rest ih =>
    intro st r log h
    rcases visitAllLog_cons_cases h with ⟨e, hx, hr⟩ | ⟨st1, l1, l2, hx, hrest, hlog⟩
    · subst hr
      exact ⟨hc x st _ log hx, fun st1 h1 => by cases h1⟩
    · have hg1 := hg x st st1 l1 hx
      obtain ⟨hl1nd, hl1w, hl1v⟩ := hc x st _ l1 hx
      obtain ⟨⟨hl2nd, hl2w, hl2v⟩, hg2⟩ := ih st1 r l2 hrest
      subst hlog
      refine ⟨⟨?_, ?_, ?_⟩, ?_⟩
      · rw [List.nodup_append]
        refine ⟨hl1nd, hl2nd, ?_⟩
        intro a ha1 ha2
        have hv := hl1v st1 rfl a ha1
        rw [(hl2w a ha2).2] at hv
        cases hv
      · intro a ha
        rcases List.mem_append.mp ha with ha1 | ha2
        · exact hl1w a ha1
        · have hw := hl2w a ha2
          refine ⟨by rw [← hg1.1]; exact hw.1, ?_⟩
          cases hv : st.visited a with
          | false => rfl
          | true =>
            have := hg1.2 a hv
            rw [hw.2] at this
            cases this
      · intro st2 hst2 a ha
        rcases List.mem_append.mp ha with ha1 | ha2
        · exact (hg2 st2 hst2).2 a (hl1v st1 rfl a ha1)
        · exact hl2v st2 hst2 a ha2
      · intro st2 hst2
        exact hg1.andThen (hg2 st2 hst2)

theorem dfsLog_logOK (g : Graph) : ∀ (fuel : Nat) (node : String) (st : DfsState)
    (r : DfsResult) (log : List String), dfsLog g fuel node st = some (r, log) →
    LogOK st r log := by
  intro fuel
  induction fuel with
  | zero => intro node st r log h; simp [dfsLog] at h
  | succ fuel ih =>
    intro node st r log h
    rcases dfsLog_succ_cases h with hnil | ⟨hvis, hvd, r1, log1, hloop, hlog, hok⟩
    · rw [hnil]; exact LogOK_nil st r
    · obtain ⟨⟨hnd, hw, hv⟩, _⟩ := visitAllLog_logOK
        (fun x s s1 l hx => dfs_grows g fuel x s s1 (dfs_of_dfsLog hx)) ih
        (g.adj node) _ r1 log1 hloop
      subst hlog
      have hnode : node ∉ log1 := by
        intro hmem
        have := (hw node hmem).1
        simp at this
      refine ⟨List.nodup_cons.mpr ⟨hnode, hnd⟩, ?_, ?_⟩
      · intro a ha
        rcases List.mem_cons.mp ha with rfl | ha1
        · exact ⟨hvis, hvd⟩
        · have hane : a ≠ node := fun e => hnode (e ▸ ha1)
          have := hw a ha1
          simpa [Function.update, hane] using this
      · intro st2 hst2 a ha
        obtain ⟨st1, hr1, hst2eq⟩ := hok st2 hst2
        subst hst2eq
        rcases List.mem_cons.mp ha with rfl | ha1
        · simp
        · have hane : a ≠ node := fun e => hnode (e ▸ ha1)
          have := hv st1 hr1 a ha1
          simpa [Function.update, hane] using this

/-- `DFSLog` returns what `DFS` returns, together with a log without duplicates. -/
theorem DFSLog_spec (g : Graph) (roots : List String) :
    ∃ r log, g.DFSLog roots = some (r, log) ∧ g.DFS roots = some r ∧ log.Nodup := by
  obtain ⟨r, hr⟩ := DFS_total g roots
  have hfst := DFSLog_fst g roots
  rw [hr] at hfst
  cases hL : g.DFSLog roots with
  | none => rw [hL] at hfst; cases hfst
  | some p =>
    obtain ⟨r1, log⟩ := p
    rw [hL] at hfst
    simp only [Option.map_some', Option.some.injEq] at hfst
    subst hfst
    refine ⟨r1, log, rfl, hr, ?_⟩
    unfold Graph.DFSLog at hL
    cases hR : visitAllLog (dfsLog g g.dfsFuel) roots DfsState.init with
    | none => rw [hR] at hL; cases hL
    | some q =>
      obtain ⟨r2, log2⟩ := q
      have hok := (visitAllLog_logOK
        (fun x s s1 l hx => dfs_grows g g.dfsFuel x s s1 (dfs_of_dfsLog hx))
        (dfsLog_logOK g g.dfsFuel) roots DfsState.init r2 log2 hR).1.1
      rw [hR] at hL
      cases r2 with
      | error e =>
        simp only [Option.some.injEq, Prod.mk.injEq] at hL
        rw [← hL.2]; exact hok
      | ok st1 =>
        simp only [Option.some.injEq, Prod.mk.injEq] at hL
        rw [← hL.2]; exact hok

/-- C15: `DFS` returns for every graph and every root list, and the closure ranges over the
adjacency list of each node at most once per call of `DFS`; `TopoSort` returns for every graph
and all iteration orders, and no node is dequeued twice: the dequeued nodes, which are the
`result` at each test of the loop condition and the returned list, have no duplicates. -/
theorem DFS_and_TopoSort_terminate :
    (∀ (g : Graph) (roots : List String),
      ∃ r log, g.DFS roots = some r ∧ g.DFSLog roots = some (r, log) ∧ log.Nodup) ∧
    (∀ (g : Graph) (order1 order2 : List String), g.Orders order1 order2 →
      (∃ out, g.TopoSort order1 order2 = some out ∧ out.Nodup) ∧
      ∀ (queue : List String) (deg : GoMap Int) (result : List String),
        LoopHead g order1 order2 queue deg result → result.Nodup) := by
  constructor
  · intro g roots
    obtain ⟨r, log, h1, h2, h3⟩ := DFSLog_spec g roots
    exact ⟨r, log, h2, h1, h3⟩
  · intro g order1 order2 ho
    constructor
    · obtain ⟨out, hout, hk⟩ := TopoSort_spec g ho
      exact ⟨out, hout, hk.nodup⟩
    · intro queue deg result hl
      exact (List.nodup_append.mp (hl.inv ho).nodup).1

/-- Witness for C15 on the 3-cycle with the isolated node `I`. -/
theorem DFS_and_TopoSort_terminate_witness :
    (cycle3.AddNode "I").Orders ["I", "A", "B", "C"] ["C", "B", "A", "I"] ∧
    (∃ out, (cycle3.AddNode "I").TopoSort ["I", "A", "B", "C"] ["C", "B", "A", "I"] = some out ∧
      out.Nodup) ∧
    (cycle3.AddNode "I").DFSLog ["I", "C", "A"] = some (some ⟨"C"⟩, ["I", "C", "A", "B"]) :=
  ⟨⟨by unfold IterOrder; decide, by unfold IterOrder; decide⟩,
   (DFS_and_TopoSort_terminate.2 (cycle3.AddNode "I") ["I", "A", "B", "C"]
     ["C", "B", "A", "I"] ⟨by unfold IterOrder; decide, by unfold IterOrder; decide⟩).1,
   by decide⟩

/-- Witness for C19: on the 2-cycle with the edge into `C` nothing is returned, and the
duplicated edge `a -> b` returns the same names as the single edge. -/
theorem TopoSort_mem_iff_no_cycle_upstream_witness :
    (cycleIntoC.Orders ["A", "B", "C"] ["C", "B", "A"] ∧
      cycleIntoC.TopoSort ["A", "B", "C"] ["C", "B", "A"] = some []) ∧
    (∃ out, cycleIntoC.TopoSort ["A", "B", "C"] ["C", "B", "A"] = some out ∧
      ∀ n, (n ∈ cycleIntoC.Edges ∨ ∃ x, cycleIntoC.Edge x n) →
        (n ∈ out ↔ ¬ ∃ c, cycleIntoC.OnCycle c ∧ cycleIntoC.Reach c n)) ∧
    ((doubleEdge "a" "b").Orders ["a", "b"] ["b", "a"] ∧
      (build [.addEdge "a" "b"]).Orders ["b", "a"] ["a", "b"] ∧
      ∃ out out1, (doubleEdge "a" "b").TopoSort ["a", "b"] ["b", "a"] = some out ∧
        (build [.addEdge "a" "b"]).TopoSort ["b", "a"] ["a", "b"] = some out1 ∧
        ∀ n, n ∈ out ↔ n ∈ out1) :=
  ⟨⟨⟨by unfold IterOrder; decide, by unfold IterOrder; decide⟩,
    TopoSort_mem_iff_no_cycle_upstream.2.1 ["A", "B", "C"] ["C", "B", "A"]
      ⟨by unfold IterOrder; decide, by unfold IterOrder; decide⟩⟩,
   TopoSort_mem_iff_no_cycle_upstream.1 cycleIntoC ["A", "B", "C"] ["C", "B", "A"]
     ⟨by unfold IterOrder; decide, by unfold IterOrder; decide⟩,
   ⟨by unfold IterOrder; decide, by unfold IterOrder; decide⟩,
   ⟨by unfold IterOrder; decide, by unfold IterOrder; decide⟩,
   TopoSort_mem_iff_no_cycle_upstream.2.2 (doubleEdge "a" "b") (build [.addEdge "a" "b"])
     ["a", "b"] ["b", "a"] ["b", "a"] ["a", "b"]
     ⟨by unfold IterOrder; decide, by unfold IterOrder; decide⟩
     ⟨by unfold IterOrder; decide, by unfold IterOrder; decide⟩
     (fun k => by rw [doubleEdge, mem_build_iff, mem_build_iff]; simp)
     (fun x y => by rw [doubleEdge, edge_build_iff, edge_build_iff]; simp)⟩

end Togosort
